import Mathlib

/-!
# kubechecks `pkg/server/server.go`: application index and webhook reconciliation

A shallow embedding of `Server.buildVcsToArgoMap`, `Server.hooksPrefix` and
`Server.ensureWebhooks`.

* Go `error` values are the inductive `Error`; the sentinel
  `vcs_clients.ErrHookNotFound` is a constructor, so the identity test
  `err != vcs_clients.ErrHookNotFound` is structural inequality with it.
* A Go `map[string]V` is `GoMap V`: a key-unique list of entries.  The position of
  an entry in the list is the position of its key in a `range` over the map; every
  ordering of a key set is a `GoMap`, so a statement over all maps covers every
  iteration order Go may pick.
* Calls to the collaborators (Argo CD client, VCS client) are recorded, in order, in
  a list of `Event`s.  Console output (`println`, `fmt.Println`) is not recorded.
* `viper` is the record `Viper` of its two lookup functions.
-/

namespace Kubechecks

/-! ## Errors -/

/-- Go `error` values: the sentinel `vcs_clients.ErrHookNotFound`, `errors.New msg`
and `errors.Wrap cause msg`. -/
inductive Error where
  | ErrHookNotFound : Error
  | New (msg : String) : Error
  | Wrap (cause : Error) (msg : String) : Error
  deriving DecidableEq, Repr

/-! ## Go maps -/

/-- Value stored under `k` in an entry list (`none` when `k` is not a key). -/
def findEntries {β : Type} (k : String) : List (String × β) → Option β
  | [] => none
  | (k', v') :: rest => if k' = k then some v' else findEntries k rest

/-- Entry list after the assignment `m[k] = v`: an existing key keeps its place, a
new key is added. -/
def setEntries {β : Type} (k : String) (v : β) : List (String × β) → List (String × β)
  | [] => [(k, v)]
  | (k', v') :: rest =>
    if k' = k then (k', v) :: rest else (k', v') :: setEntries k v rest

/-- A Go `map[string]V`: entries with pairwise distinct keys. -/
structure GoMap (β : Type) where
  entries : List (String × β)
  nodup : (entries.map Prod.fst).Nodup

namespace GoMap

/-- The result of `make(map[string]V)`. -/
def empty {β : Type} : GoMap β := ⟨[], List.nodup_nil⟩

/-- The keys, in the order a `range` visits them. -/
def keys {β : Type} (m : GoMap β) : List String := m.entries.map Prod.fst

/-- The two-result index expression `v, ok := m[k]`. -/
def find? {β : Type} (m : GoMap β) (k : String) : Option β := findEntries k m.entries

/-- The assignment `m[k] = v`. -/
def set {β : Type} (m : GoMap β) (k : String) (v : β) : GoMap β :=
  ⟨setEntries k v m.entries, by
    have key : ∀ l : List (String × β), (setEntries k v l).map Prod.fst =
        if k ∈ l.map Prod.fst then l.map Prod.fst else l.map Prod.fst ++ [k] := by
      intro l
      induction l with
      | nil => simp [setEntries]
      | cons hd tl ih =>
        obtain ⟨k', v'⟩ := hd
        by_cases h : k' = k
        · simp [setEntries, h]
        · have h' : ¬ k = k' := fun e => h e.symm
          by_cases hm : k ∈ tl.map Prod.fst
          · simp only [setEntries, h, if_false, List.map_cons, ih, hm, if_true,
              List.mem_cons, or_true]
          · simp only [setEntries, h, if_false, List.map_cons, ih, hm, List.mem_cons, h',
              or_self, List.cons_append]
    rw [key]
    split
    · exact m.nodup
    · rename_i hk
      rw [List.nodup_append]
      refine ⟨m.nodup, List.nodup_singleton k, ?_⟩
      intro a ha hb
      simp only [List.mem_singleton] at hb
      subst hb
      exact hk ha⟩

/-- The index expression `m[k]` on a map of slices: the nil slice for a missing key. -/
def index {α : Type} (m : GoMap (List α)) (k : String) : List α := (m.find? k).getD []

end GoMap

/-! ## Data model -/

/-- The `v1alpha1.ApplicationSource` record. -/
structure ApplicationSource where
  RepoURL : String
  Path : String
  TargetRevision : String
  deriving DecidableEq, Repr

/-- The `v1alpha1.ApplicationSpec` record; `Source` is a pointer and may be nil. -/
structure ApplicationSpec where
  Source : Option ApplicationSource
  deriving DecidableEq, Repr

/-- The `v1alpha1.Application` record. -/
structure Application where
  Name : String
  Spec : ApplicationSpec
  deriving DecidableEq, Repr

/-- The `v1alpha1.ApplicationList` record. -/
structure ApplicationList where
  Items : List Application
  deriving DecidableEq, Repr

/-- The `pkg.VcsToArgoMap` record. -/
structure VcsToArgoMap where
  VcsRepos : GoMap (List Application)

/-- The fields of `pkg.ServerConfig` that `server.go` reads or writes. -/
structure ServerConfig where
  UrlPrefix : String
  WebhookSecret : String
  VcsToArgoMap : VcsToArgoMap

/-- The process-wide `viper` configuration, as its lookup functions. -/
structure Viper where
  GetBool : String → Bool
  GetString : String → String

/-- Calls made to the collaborators, with the error each one returned. -/
inductive Event where
  | GetApplications : Event
  | GetHookByUrl (repo url : String) (err : Option Error) : Event
  | CreateHook (repo url secret : String) (err : Option Error) : Event
  deriving DecidableEq, Repr

/-- What a method of `Server` leaves behind: the returned error, the configuration
it points to, and the collaborator calls it made. -/
structure Outcome where
  err : Option Error
  cfg : ServerConfig
  trace : List Event

/-! ## `buildVcsToArgoMap` -/

/-- The `for _, app := range apps.Items` loop of `buildVcsToArgoMap`, on the local
map `result.VcsRepos`. -/
def buildVcsToArgoMap.loop : List Application → GoMap (List Application) →
    GoMap (List Application)
  | [], result => result
  | app :: rest, result =>
    match app.Spec.Source with
    | none => buildVcsToArgoMap.loop rest result
    | some source =>
      let appsForRepo := result.index source.RepoURL
      let appsForRepo := appsForRepo ++ [app]
      buildVcsToArgoMap.loop rest (result.set source.RepoURL appsForRepo)

/-- The method `Server.buildVcsToArgoMap`; `fetch` is what
`argoClient.GetApplications(ctx)` returns if it is called. -/
def buildVcsToArgoMap (viper : Viper) (fetch : Except Error ApplicationList)
    (cfg : ServerConfig) : Outcome :=
  if !viper.GetBool "monitor-all-applications" then
    { err := none, cfg := cfg, trace := [] }
  else
    let result : VcsToArgoMap := { VcsRepos := GoMap.empty }
    match fetch with
    | .error err =>
      { err := some (Error.Wrap err "failed to list applications"), cfg := cfg,
        trace := [Event.GetApplications] }
    | .ok apps =>
      let result : VcsToArgoMap :=
        { VcsRepos := buildVcsToArgoMap.loop apps.Items result.VcsRepos }
      { err := none, cfg := { cfg with VcsToArgoMap := result },
        trace := [Event.GetApplications] }

/-! ## The Go standard library: `strings`, `path`, `net/url`

`hooksPrefix` and `ensureWebhooks` build the callback URL with `url.JoinPath`.  That
function is not part of the repository; the definitions of this section follow the
Go standard library (Go 1.19.1 and later).  Strings are compared and cut at the
ASCII characters `/` and `.` only, so working on characters instead of bytes makes
no difference.  Parsing, percent-escaping and printing of URLs are left abstract in
`NetUrl`; `NetUrl.plain` further down gives them for URLs written with characters
that need no escaping. -/

/-- Modelled from the spec: `strings.HasPrefix` of the Go standard library, which is
not in the repository sources. -/
def strings.HasPrefix (s pre : String) : Bool := pre.data.isPrefixOf s.data

/-- Modelled from the spec: `strings.HasSuffix` of the Go standard library, which is
not in the repository sources. -/
def strings.HasSuffix (s suffix : String) : Bool := suffix.data.isSuffixOf s.data

/-- Modelled from the spec: `strings.TrimSuffix` of the Go standard library, which is
not in the repository sources ("trailing slash stripped"): `s` without the given
suffix when it ends with it, `s` otherwise. -/
def strings.TrimSuffix (s suffix : String) : String :=
  if strings.HasSuffix s suffix then ⟨s.data.take (s.data.length - suffix.data.length)⟩
  else s

/-- Modelled from the spec: the backtracking step of `path.Clean` (Go standard
library, not in the repository sources), `out.w--` followed by
`for out.w > dotdot && out.index(out.w) != '/' { out.w-- }`.  The argument is
`out.w` before the step, the result is `out.w` after it. -/
def path.Clean.backtrack (buf : List Char) (dotdot : Nat) : Nat → Nat
  | 0 => 0
  | w + 1 => if dotdot < w ∧ buf.get? w ≠ some '/' then path.Clean.backtrack buf dotdot w else w

/-- Modelled from the spec: the main loop `for r < n` of `path.Clean` (Go standard
library, not in the repository sources).  `rest` is `path[r:]`, `out` is the
contents of the output buffer, `dotdot` the index where `..` must stop.  Every turn
consumes at least one character of `rest`, so `rest.length` turns of fuel are
enough. -/
def path.Clean.loop (rooted : Bool) : Nat → List Char → List Char → Nat → List Char
  | 0, _, out, _ => out
  | fuel + 1, rest, out, dotdot =>
    match rest with
    | [] => out
    | c :: t =>
      if c = '/' then
        -- empty path element
        path.Clean.loop rooted fuel t out dotdot
      else if c = '.' ∧ (t = [] ∨ t.head? = some '/') then
        -- . element
        path.Clean.loop rooted fuel t out dotdot
      else if c = '.' ∧ t.head? = some '.' ∧ (t.tail = [] ∨ t.tail.head? = some '/') then
        -- .. element: remove to last /
        if dotdot < out.length then
          -- can backtrack
          path.Clean.loop rooted fuel t.tail
            (out.take (path.Clean.backtrack out dotdot out.length)) dotdot
        else if rooted = false then
          -- cannot backtrack, but not rooted, so append .. element
          let out := if 0 < out.length then out ++ ['/'] else out
          let out := out ++ ['.', '.']
          path.Clean.loop rooted fuel t.tail out out.length
        else
          path.Clean.loop rooted fuel t.tail out dotdot
      else
        -- real path element: add slash if needed, copy element
        let out :=
          if (rooted = true ∧ out.length ≠ 1) ∨ (rooted = false ∧ out.length ≠ 0) then
            out ++ ['/']
          else out
        path.Clean.loop rooted fuel (t.dropWhile (fun x => decide (x ≠ '/')))
          (out ++ c :: t.takeWhile (fun x => decide (x ≠ '/'))) dotdot

/-- Modelled from the spec: `path.Clean` of the Go standard library (not in the
repository sources), on the characters of the path. -/
def path.Clean.chars (p : List Char) : List Char :=
  if p = [] then ['.']
  else
    let rooted := decide (p.head? = some '/')
    let out :=
      if rooted then path.Clean.loop rooted p.length p.tail ['/'] 1
      else path.Clean.loop rooted p.length p [] 0
    -- turn empty string into "."
    if out = [] then ['.'] else out

/-- Modelled from the spec: `path.Clean` of the Go standard library (not in the
repository sources): the shortest path name equivalent to `p`, with repeated
slashes, `.` elements, inner `..` elements and trailing slashes removed. -/
def path.Clean (p : String) : String := ⟨path.Clean.chars p.data⟩

/-- Modelled from the spec: the loop of `path.Join` (Go standard library, not in the
repository sources) that writes the non-empty leading elements and every later
element into `buf`, separated by `/`. -/
def path.Join.loop : List String → List Char → List Char
  | [], buf => buf
  | e :: rest, buf =>
    if 0 < buf.length ∨ e ≠ "" then
      let buf := if 0 < buf.length then buf ++ ['/'] else buf
      path.Join.loop rest (buf ++ e.data)
    else path.Join.loop rest buf

/-- Modelled from the spec: `path.Join` of the Go standard library (not in the
repository sources), the "path-joining" of the spec: the elements joined with `/`,
empty elements ignored, the result cleaned; the empty string when all elements are
empty. -/
def path.Join (elem : List String) : String :=
  if (elem.map (fun e => e.data.length)).sum = 0 then ""
  else path.Clean ⟨path.Join.loop elem []⟩

/-- The parts of `net/url` that `URL.JoinPath` relies on and that are not modelled
here: `url.Parse`, and on a parsed URL `EscapedPath`, `setPath` (which leaves the
URL unchanged when the new path has a malformed percent-escape) and `String`. -/
structure NetUrl (U : Type) where
  Parse : String → Except Error U
  EscapedPath : U → String
  setPath : U → String → U
  URLString : U → String

/-- Modelled from the spec: the path that the method `(*URL).JoinPath` of `net/url`
(Go standard library, not in the repository sources) hands to `setPath`, from the
escaped path of the receiver and the elements to join. -/
def url.URL.JoinPath.path (escapedPath : String) (elem : List String) : String :=
  let elem0 := escapedPath
  if strings.HasPrefix elem0 "/" = false then
    -- return a relative path if u is relative, but ensure that it contains no ../ elements
    let elem := ("/" ++ elem0) :: elem
    let p : String := ⟨(path.Join elem).data.drop 1⟩
    -- path.Join will remove any trailing slashes; preserve at least one
    if strings.HasSuffix (elem.getLastD "") "/" ∧ strings.HasSuffix p "/" = false then p ++ "/"
    else p
  else
    let elem := elem0 :: elem
    let p := path.Join elem
    if strings.HasSuffix (elem.getLastD "") "/" ∧ strings.HasSuffix p "/" = false then p ++ "/"
    else p

/-- Modelled from the spec: the method `(*URL).JoinPath` of `net/url` (Go standard
library, not in the repository sources). -/
def url.URL.JoinPath {U : Type} (L : NetUrl U) (u : U) (elem : List String) : U :=
  L.setPath u (url.URL.JoinPath.path (L.EscapedPath u) elem)

/-- Modelled from the spec: the function `url.JoinPath` of `net/url` (Go standard
library, not in the repository sources); the pair is `(result, err)`, and `result`
is the empty string when `base` does not parse. -/
def url.JoinPath {U : Type} (L : NetUrl U) (base : String) (elem : List String) :
    String × Option Error :=
  match L.Parse base with
  | .error err => ("", some err)
  | .ok u => (L.URLString (url.URL.JoinPath L u elem), none)

/-! ## `hooksPrefix` and `ensureWebhooks` -/

/-- The constant `KubeChecksHooksPathPrefix`. -/
def KubeChecksHooksPathPrefix : String := "/hooks"

/-- The method `Server.hooksPrefix`.  A failure of `url.JoinPath` is only logged; the
returned string is then trimmed all the same. -/
def hooksPrefix {U : Type} (L : NetUrl U) (cfg : ServerConfig) : String :=
  let pre := cfg.UrlPrefix
  let (url, _) := url.JoinPath L "/" [pre, KubeChecksHooksPathPrefix]
  strings.TrimSuffix url "/"

/-- The `vcs_clients.WebHookConfig` record returned by a hook lookup. -/
structure WebHookConfig where
  Url : String
  deriving DecidableEq, Repr

/-- The two methods of `vcs_clients.Client` that `ensureWebhooks` calls.  The
provider has a state of type `σ` that every call may read and change, so a result
may depend on all earlier calls. -/
structure VcsClient (σ : Type) where
  GetHookByUrl : σ → String → String → (Option WebHookConfig × Option Error) × σ
  CreateHook : σ → String → String → String → Option Error × σ

/-- The `for repo := range s.cfg.VcsToArgoMap.VcsRepos` loop of `ensureWebhooks`, over
the keys in iteration order. -/
def ensureWebhooks.loop {σ : Type} (vcsClient : VcsClient σ) (fullUrl secret : String) :
    List String → σ → List Event → σ × List Event
  | [], st, trace => (st, trace)
  | repo :: rest, st, trace =>
    let ((_, err), st) := vcsClient.GetHookByUrl st repo fullUrl
    let trace := trace ++ [Event.GetHookByUrl repo fullUrl err]
    if err ≠ none ∧ err ≠ some Error.ErrHookNotFound then
      ensureWebhooks.loop vcsClient fullUrl secret rest st trace
    else
      let (err, st) := vcsClient.CreateHook st repo fullUrl secret
      ensureWebhooks.loop vcsClient fullUrl secret rest st
        (trace ++ [Event.CreateHook repo fullUrl secret err])

/-- The expression `url.JoinPath(urlBase, s.hooksPrefix())` of `ensureWebhooks`: the
composed callback URL and the error of the join. -/
def ensureWebhooks.fullUrl {U : Type} (L : NetUrl U) (urlBase : String)
    (cfg : ServerConfig) : String × Option Error :=
  url.JoinPath L urlBase [hooksPrefix L cfg]

/-- The method `Server.ensureWebhooks`, started with the provider in state `st`;
returns the outcome and the provider's final state. -/
def ensureWebhooks {U σ : Type} (L : NetUrl U) (viper : Viper) (vcsClient : VcsClient σ)
    (cfg : ServerConfig) (st : σ) : Outcome × σ :=
  if viper.GetBool "ensure-webhooks" = false then
    ({ err := none, cfg := cfg, trace := [] }, st)
  else if viper.GetBool "monitor-all-applications" = false then
    ({ err := some (Error.New "must enable 'monitor-all-applications' to create webhooks"),
       cfg := cfg, trace := [] }, st)
  else
    let urlBase := viper.GetString "webhook-url-base"
    if urlBase = "" then
      ({ err := some (Error.New "must define 'webhook-url-base' to create webhooks"),
         cfg := cfg, trace := [] }, st)
    else
      match ensureWebhooks.fullUrl L urlBase cfg with
      | (_, some err) =>
        ({ err := some (Error.Wrap err "failed to create a webhook url"), cfg := cfg,
           trace := [] }, st)
      | (fullUrl, none) =>
        let (st, trace) :=
          ensureWebhooks.loop vcsClient fullUrl cfg.WebhookSecret
            cfg.VcsToArgoMap.VcsRepos.keys st []
        ({ err := none, cfg := cfg, trace := trace }, st)

/-! ## `net/url` on plain URLs, and sample inputs -/

/-- Modelled from the spec: the characters of a path that `net/url` (Go standard
library, not in the repository sources) neither escapes nor unescapes and that start
neither a scheme nor a query: letters, digits, `-`, `_`, `.`, `~`, the characters
`$`, `&`, `+`, `,`, `;`, `=`, `@`, and the separator `/`. -/
def plainChar (c : Char) : Bool :=
  c.isAlphanum || c == '-' || c == '_' || c == '.' || c == '~' ||
    c == '$' || c == '&' || c == '+' || c == ',' || c == ';' || c == '=' || c == '@' ||
    c == '/'

/-- Characters of a plain host name: letters, digits, `-` and `.`. -/
def hostChar (c : Char) : Bool := c.isAlphanum || c == '-' || c == '.'

/-- Characters of a plain query: the plain characters and `?`. -/
def queryChar (c : Char) : Bool := plainChar c || c == '?'

/-- Modelled from the spec: the authorities that `url.Parse` (Go standard library,
not in the repository sources) is modelled for: a non-empty plain host name,
optionally followed by `:` and the digits of a port. -/
def plainAuthority (a : List Char) : Bool :=
  let host := a.takeWhile (fun x => decide (x ≠ ':'))
  let port := a.dropWhile (fun x => decide (x ≠ ':'))
  !host.isEmpty && host.all hostChar && port.tail.all Char.isDigit

/-- Modelled from the spec: the schemes that `url.Parse` (Go standard library, not in
the repository sources) is modelled for.  The scheme, with its `://`, that a plain
URL starts with: `https://`, `http://` or none. -/
def NetUrl.plain.scheme (rest : List Char) : List Char :=
  if "https://".data.isPrefixOf rest then "https://".data
  else if "http://".data.isPrefixOf rest then "http://".data
  else []

/-- Modelled from the spec: `url.Parse` of the Go standard library (not in the
repository sources), on the plain URLs: `http://` or `https://`, a plain authority
and a path that is empty or starts with `/`; or a path alone, rooted or relative, that
does not start with `//`; either one optionally followed by `?` and a query; all
written with plain characters.  A URL is kept as the triple of what precedes its
path (empty for a path alone), its path, and what follows its path (empty, or `?`
and the query).  Every other string is outside this instance and rejected by it. -/
def NetUrl.plain.Parse (s : String) : Except Error (String × String × String) :=
  let rest := s.data.takeWhile (fun x => decide (x ≠ '?'))
  let query := s.data.dropWhile (fun x => decide (x ≠ '?'))
  let scheme := NetUrl.plain.scheme rest
  let r := rest.drop scheme.length
  let authority := r.takeWhile (fun x => decide (x ≠ '/'))
  let path := r.dropWhile (fun x => decide (x ≠ '/'))
  if scheme ≠ [] then
    if plainAuthority authority = true ∧ path.all plainChar = true ∧
        query.all queryChar = true then
      .ok (⟨scheme ++ authority⟩, ⟨path⟩, ⟨query⟩)
    else .error (Error.New "not a plain URL")
  else
    if "//".data.isPrefixOf rest = false ∧ rest.all plainChar = true ∧
        query.all queryChar = true then
      .ok ("", ⟨rest⟩, ⟨query⟩)
    else .error (Error.New "not a plain URL")

/-- Modelled from the spec: `net/url` of the Go standard library (not in the
repository sources) on plain URLs, where escaping changes nothing: the escaped path
is the path, `setPath` stores a plain path (a path with other characters is outside
this instance and not stored), and `String` prints what precedes the path, a `/` if
that is not empty and the path is relative, the path, and the query. -/
def NetUrl.plain : NetUrl (String × String × String) where
  Parse := NetUrl.plain.Parse
  EscapedPath := fun u => u.2.1
  setPath := fun u p => if p.data.all plainChar = true then (u.1, p, u.2.2) else u
  URLString := fun u =>
    (if u.1 ≠ "" ∧ u.2.1 ≠ "" ∧ u.2.1.data.head? ≠ some '/' then u.1 ++ "/" ++ u.2.1
     else u.1 ++ u.2.1) ++ u.2.2

/-- A `viper` configuration with the given two toggles and base URL. -/
def sampleViper (ensure monitor : Bool) (urlBase : String) : Viper where
  GetBool := fun key =>
    if key = "ensure-webhooks" then ensure
    else if key = "monitor-all-applications" then monitor
    else false
  GetString := fun key => if key = "webhook-url-base" then urlBase else ""

/-- An application named `name`, sourced from `repo` when given. -/
def sampleApp (name : String) (repo : Option String) : Application where
  Name := name
  Spec := { Source := repo.map (fun r => { RepoURL := r, Path := ".", TargetRevision := "HEAD" }) }

/-- A fetched list: two applications from `R1`, one without source, one from `R2`. -/
def sampleApps : ApplicationList where
  Items := [sampleApp "a" (some "R1"), sampleApp "b" none, sampleApp "c" (some "R2"),
    sampleApp "d" (some "R1")]

/-- A configuration with URL prefix `pre` whose map has the keys `R1`, `R2`, `R3`. -/
def sampleConfig (pre : String) : ServerConfig where
  UrlPrefix := pre
  WebhookSecret := "s3cret"
  VcsToArgoMap :=
    { VcsRepos := ((GoMap.empty.set "R1" [sampleApp "a" (some "R1")]).set "R2"
        [sampleApp "c" (some "R2")]).set "R3" [sampleApp "e" (some "R3")] }

/-- A provider that counts its calls: the lookup reports not-found for `R1`, fails
with a transport error for `R2` and finds a hook otherwise; creating a hook fails
for `R3`. -/
def sampleVcsClient : VcsClient Nat where
  GetHookByUrl := fun st repo url =>
    if repo = "R1" then ((none, some Error.ErrHookNotFound), st + 1)
    else if repo = "R2" then ((none, some (Error.New "transport error")), st + 1)
    else ((some { Url := url }, none), st + 1)
  CreateHook := fun st repo _ _ =>
    if repo = "R3" then (some (Error.New "hook already exists"), st + 1) else (none, st + 1)

/-! ## Vocabulary of the statements -/

/-- The error of a hook lookup lets `ensureWebhooks` go on to `CreateHook`: it is nil
(a hook was returned) or it is the sentinel `ErrHookNotFound`. -/
def lookupPasses (err : Option Error) : Prop :=
  err = none ∨ err = some Error.ErrHookNotFound

instance (err : Option Error) : Decidable (lookupPasses err) := by
  unfold lookupPasses; infer_instance

/-- The repository a provider call is about. -/
def Event.repo : Event → Option String
  | .GetApplications => none
  | .GetHookByUrl repo _ _ => some repo
  | .CreateHook repo _ _ _ => some repo

/-- Number of `GetHookByUrl` calls for repository `r` in a trace. -/
def lookupCount (r : String) : List Event → Nat
  | [] => 0
  | .GetHookByUrl repo _ _ :: rest => (if repo = r then 1 else 0) + lookupCount r rest
  | _ :: rest => lookupCount r rest

/-- Number of `CreateHook` calls for repository `r` in a trace. -/
def createCount (r : String) : List Event → Nat
  | [] => 0
  | .CreateHook repo _ _ _ :: rest => (if repo = r then 1 else 0) + createCount r rest
  | _ :: rest => createCount r rest

/-- The pieces of a path between its slashes (Go `strings.Split(p, "/")`), empty
pieces included. -/
def splitSlash : List Char → List (List Char)
  | [] => [[]]
  | c :: t =>
    if c = '/' then [] :: splitSlash t
    else
      match splitSlash t with
      | [] => [[c]]
      | h :: r => (c :: h) :: r

/-- The segments of a path: its non-empty pieces between slashes, in order. -/
def segmentChars (p : List Char) : List (List Char) :=
  (splitSlash p).filter (fun s => decide (s ≠ []))

/-- The segments of a path, as strings. -/
def segments (p : String) : List String := (segmentChars p.data).map String.mk

/-- Segments written one after the other with exactly one `/` between neighbours. -/
def joinSlashChars : List (List Char) → List Char
  | [] => []
  | [s] => s
  | s :: t :: rest => s ++ '/' :: joinSlashChars (t :: rest)

/-- Segments written one after the other with exactly one `/` between neighbours, as
a string. -/
def joinSlash (segs : List String) : String := ⟨joinSlashChars (segs.map String.data)⟩

/-- The hook path the spec describes for URL prefix `pre`: a `/`, the segments of
the prefix and the segment `hooks`, one `/` between neighbours, none at the end. -/
def hooksPath (pre : String) : String := "/" ++ joinSlash (segments pre ++ ["hooks"])

/-- The callback path the spec describes for a base URL with path `basePath` and URL
prefix `pre`: the segments of the base path, those of the prefix and `hooks`, one
`/` between neighbours, none at the end, a leading `/` when the base path has
one. -/
def composedPath (basePath pre : String) : String :=
  (if strings.HasPrefix basePath "/" then "/" else "") ++
    joinSlash (segments basePath ++ segments pre ++ ["hooks"])

/-- Two slashes in a row occur somewhere in the path. -/
def hasDoubleSlash : List Char → Bool
  | c :: d :: t => (c == '/' && d == '/') || hasDoubleSlash (d :: t)
  | _ => false

/-- The path of the callback URL that the spec describes for a base URL with
`origin` before its path `basePath`, and URL prefix `pre`: the segments of the base
path, those of the prefix and `hooks`, one `/` between neighbours, none at the end;
a `/` in front, except for a base URL that is a relative path alone. -/
def callbackPath (origin basePath pre : String) : String :=
  (if origin = "" ∧ strings.HasPrefix basePath "/" = false then "" else "/") ++
    joinSlash (segments basePath ++ segments pre ++ ["hooks"])

/-- What the "real path element" case of `path.Clean` makes of the buffer of a rooted
path: a `/` unless the buffer is the root alone, then the element. -/
def pushSegment (out seg : List Char) : List Char :=
  (if out.length ≠ 1 then out ++ ['/'] else out) ++ seg

/-- The applications of `apps` whose source descriptor names repository `r`, in the
order of `apps`. -/
def sourcedFrom (r : String) (apps : List Application) : List Application :=
  apps.filter (fun a => decide (a.Spec.Source.map (fun s => s.RepoURL) = some r))

/-! ## Facts about Go maps -/

theorem findEntries_setEntries_same {β : Type} (k : String) (v : β)
    (l : List (String × β)) : findEntries k (setEntries k v l) = some v := by
  induction l with
  | nil => simp [setEntries, findEntries]
  | cons hd tl ih =>
    obtain ⟨k', v'⟩ := hd
    by_cases h : k' = k
    · simp [setEntries, findEntries, h]
    · simp [setEntries, findEntries, h, ih]

theorem findEntries_setEntries_other {β : Type} (k k2 : String) (v : β)
    (l : List (String × β)) (hne : k2 ≠ k) :
    findEntries k2 (setEntries k v l) = findEntries k2 l := by
  induction l with
  | nil =>
    have h' : ¬ k = k2 := fun e => hne e.symm
    simp [setEntries, findEntries, h']
  | cons hd tl ih =>
    obtain ⟨k', v'⟩ := hd
    by_cases h : k' = k
    · subst h
      have h' : ¬ k' = k2 := fun e => hne e.symm
      simp [setEntries, findEntries, h']
    · by_cases h2 : k' = k2
      · subst h2
        simp [setEntries, findEntries, h]
      · simp [setEntries, findEntries, h, h2, ih]

theorem findEntries_eq_none_iff {β : Type} (k : String) (l : List (String × β)) :
    findEntries k l = none ↔ k ∉ l.map Prod.fst := by
  induction l with
  | nil => simp [findEntries]
  | cons hd tl ih =>
    obtain ⟨k', v'⟩ := hd
    by_cases h : k' = k
    · simp [findEntries, h]
    · have h' : ¬ k = k' := fun e => h e.symm
      simp [findEntries, h, h', ih]

theorem findEntries_of_mem {β : Type} (k : String) (v : β) (l : List (String × β))
    (hnd : (l.map Prod.fst).Nodup) (hmem : (k, v) ∈ l) : findEntries k l = some v := by
  induction l with
  | nil => simp at hmem
  | cons hd tl ih =>
    obtain ⟨k', v'⟩ := hd
    simp only [List.map_cons, List.nodup_cons] at hnd
    rcases List.mem_cons.mp hmem with h | h
    · cases h
      simp [findEntries]
    · have hk : k ∈ tl.map Prod.fst := List.mem_map.mpr ⟨(k, v), h, rfl⟩
      have hne : ¬ k' = k := by
        intro e
        subst e
        exact hnd.1 hk
      simp [findEntries, hne, ih hnd.2 h]

theorem GoMap.find?_set_same {β : Type} (m : GoMap β) (k : String) (v : β) :
    (m.set k v).find? k = some v :=
  findEntries_setEntries_same k v m.entries

theorem GoMap.find?_set_other {β : Type} (m : GoMap β) (k k2 : String) (v : β)
    (hne : k2 ≠ k) : (m.set k v).find? k2 = m.find? k2 :=
  findEntries_setEntries_other k k2 v m.entries hne

theorem GoMap.mem_keys_iff {β : Type} (m : GoMap β) (k : String) :
    k ∈ m.keys ↔ m.find? k ≠ none := by
  unfold GoMap.keys GoMap.find?
  rw [Ne, findEntries_eq_none_iff]
  exact not_not.symm

theorem GoMap.find?_of_mem {β : Type} (m : GoMap β) (k : String) (v : β)
    (hmem : (k, v) ∈ m.entries) : m.find? k = some v :=
  findEntries_of_mem k v m.entries m.nodup hmem

/-! ## `buildVcsToArgoMap`: the index -/

theorem sourcedFrom_append (r : String) (xs ys : List Application) :
    sourcedFrom r (xs ++ ys) = sourcedFrom r xs ++ sourcedFrom r ys := by
  simp [sourcedFrom]

/-- Loop invariant of `buildVcsToArgoMap`: once the applications `seen` have been
processed, a key is present exactly when some processed application is sourced from
it, and it then holds those applications in order. -/
theorem buildVcsToArgoMap.loop_find? (rest : List Application) :
    ∀ (seen : List Application) (m : GoMap (List Application)),
      (∀ r, m.find? r = if sourcedFrom r seen = [] then none else some (sourcedFrom r seen)) →
      ∀ r, (buildVcsToArgoMap.loop rest m).find? r =
        if sourcedFrom r (seen ++ rest) = [] then none
        else some (sourcedFrom r (seen ++ rest)) := by
  induction rest with
  | nil => intro seen m h r; simpa [buildVcsToArgoMap.loop] using h r
  | cons app rest ih =>
    intro seen m h r
    have hassoc : seen ++ app :: rest = (seen ++ [app]) ++ rest := by simp
    cases hs : app.Spec.Source with
    | none =>
      simp only [buildVcsToArgoMap.loop, hs]
      rw [hassoc]
      apply ih (seen ++ [app]) m
      intro r2
      have : sourcedFrom r2 (seen ++ [app]) = sourcedFrom r2 seen := by
        simp [sourcedFrom, hs]
      rw [this]
      exact h r2
    | some source =>
      simp only [buildVcsToArgoMap.loop, hs]
      rw [hassoc]
      apply ih (seen ++ [app])
      intro r2
      by_cases hr : r2 = source.RepoURL
      · subst hr
        rw [GoMap.find?_set_same]
        have happ : sourcedFrom source.RepoURL (seen ++ [app]) =
            sourcedFrom source.RepoURL seen ++ [app] := by
          simp [sourcedFrom, hs]
        have hidx : m.index source.RepoURL = sourcedFrom source.RepoURL seen := by
          unfold GoMap.index
          rw [h source.RepoURL]
          split <;> simp_all
        rw [happ, hidx]
        simp
      · rw [GoMap.find?_set_other _ _ _ _ hr]
        have happ : sourcedFrom r2 (seen ++ [app]) = sourcedFrom r2 seen := by
          have : ¬ source.RepoURL = r2 := fun e => hr e.symm
          simp [sourcedFrom, hs, this]
        rw [happ]
        exact h r2

theorem buildVcsToArgoMap.find?_result (apps : List Application) (r : String) :
    (buildVcsToArgoMap.loop apps GoMap.empty).find? r =
      if sourcedFrom r apps = [] then none else some (sourcedFrom r apps) := by
  have h := buildVcsToArgoMap.loop_find? apps [] GoMap.empty
    (by intro r2; simp [sourcedFrom, GoMap.empty, GoMap.find?, findEntries]) r
  simpa using h

theorem buildVcsToArgoMap.cfg_of_ok (viper : Viper) (apps : ApplicationList)
    (cfg : ServerConfig) (hmon : viper.GetBool "monitor-all-applications" = true) :
    (buildVcsToArgoMap viper (.ok apps) cfg).cfg.VcsToArgoMap.VcsRepos =
      buildVcsToArgoMap.loop apps.Items GoMap.empty := by
  simp [buildVcsToArgoMap, hmon]

/-! ## `buildVcsToArgoMap`: the claims -/

/-- C1: with `monitor-all-applications` enabled and a successful fetch, the sequence
stored under any repository identifier `r` after `buildVcsToArgoMap` is exactly the
fetched applications whose source descriptor has `RepoURL = r`, in fetch order,
whatever the previous map held; `r` is a key exactly when that sequence is
non-empty. -/
theorem buildVcsToArgoMap_groups_by_repo (viper : Viper) (cfg : ServerConfig)
    (apps : ApplicationList) (r : String)
    (hmon : viper.GetBool "monitor-all-applications" = true) :
    (buildVcsToArgoMap viper (.ok apps) cfg).cfg.VcsToArgoMap.VcsRepos.index r =
        sourcedFrom r apps.Items ∧
      (r ∈ (buildVcsToArgoMap viper (.ok apps) cfg).cfg.VcsToArgoMap.VcsRepos.keys ↔
        sourcedFrom r apps.Items ≠ []) := by
  rw [buildVcsToArgoMap.cfg_of_ok viper apps cfg hmon, GoMap.mem_keys_iff]
  unfold GoMap.index
  rw [buildVcsToArgoMap.find?_result]
  by_cases h : sourcedFrom r apps.Items = []
  · simp [h]
  · simp [h]

/-- C2: with `monitor-all-applications` enabled and a successful fetch, an
application whose source descriptor is nil is in no entry of the map that
`buildVcsToArgoMap` produces, and indexing the map at any key yields a sequence
without it. -/
theorem buildVcsToArgoMap_skips_sourceless (viper : Viper) (cfg : ServerConfig)
    (apps : ApplicationList) (a : Application)
    (hmon : viper.GetBool "monitor-all-applications" = true)
    (hnil : a.Spec.Source = none) :
    (∀ e ∈ (buildVcsToArgoMap viper (.ok apps) cfg).cfg.VcsToArgoMap.VcsRepos.entries,
        a ∉ e.2) ∧
      ∀ r, a ∉ (buildVcsToArgoMap viper (.ok apps) cfg).cfg.VcsToArgoMap.VcsRepos.index r := by
  rw [buildVcsToArgoMap.cfg_of_ok viper apps cfg hmon]
  have hnot : ∀ r, a ∉ sourcedFrom r apps.Items := by
    intro r hmem
    have := (List.mem_filter.mp hmem).2
    simp [hnil] at this
  constructor
  · rintro ⟨k, v⟩ he hmem
    have hf := GoMap.find?_of_mem _ k v he
    rw [buildVcsToArgoMap.find?_result] at hf
    split at hf
    · cases hf
    · cases hf
      exact hnot k hmem
  · intro r
    unfold GoMap.index
    rw [buildVcsToArgoMap.find?_result]
    split
    · simp
    · exact hnot r

/-- C3: with `monitor-all-applications` enabled, when the bulk fetch fails with
`e`, `buildVcsToArgoMap` returns the error `e` wrapped with "failed to list
applications" and leaves the configuration, its map included, as it was. -/
theorem buildVcsToArgoMap_fetch_error (viper : Viper) (cfg : ServerConfig) (e : Error)
    (hmon : viper.GetBool "monitor-all-applications" = true) :
    (buildVcsToArgoMap viper (.error e) cfg).err =
        some (Error.Wrap e "failed to list applications") ∧
      (buildVcsToArgoMap viper (.error e) cfg).err ≠ none ∧
      (buildVcsToArgoMap viper (.error e) cfg).cfg = cfg := by
  simp [buildVcsToArgoMap, hmon]

/-- C4: with `monitor-all-applications` disabled, whatever the deployment controller
would return, `buildVcsToArgoMap` returns nil, makes no call at all (so no fetch) and
leaves the configuration, its map included, as it was. -/
theorem buildVcsToArgoMap_disabled (viper : Viper) (cfg : ServerConfig)
    (fetch : Except Error ApplicationList)
    (hmon : viper.GetBool "monitor-all-applications" = false) :
    (buildVcsToArgoMap viper fetch cfg).err = none ∧
      (buildVcsToArgoMap viper fetch cfg).trace = [] ∧
      (buildVcsToArgoMap viper fetch cfg).cfg = cfg := by
  simp [buildVcsToArgoMap, hmon]

/-! ## `ensureWebhooks`: the loop over the repositories -/

theorem ensureWebhooks.loop_trace {σ : Type} (vcsClient : VcsClient σ)
    (fullUrl secret : String) (keys : List String) :
    ∀ (st : σ) (trace : List Event),
      ensureWebhooks.loop vcsClient fullUrl secret keys st trace =
        ((ensureWebhooks.loop vcsClient fullUrl secret keys st []).1,
          trace ++ (ensureWebhooks.loop vcsClient fullUrl secret keys st []).2) := by
  induction keys with
  | nil => intro st trace; simp [ensureWebhooks.loop]
  | cons repo rest ih =>
    intro st trace
    simp only [ensureWebhooks.loop]
    split
    · rw [ih _ (trace ++ _), ih _ ([] ++ _)]
      simp
    · rw [ih _ (trace ++ _ ++ _), ih _ ([] ++ _ ++ _)]
      simp

/-- One turn of the loop: the lookup, then either nothing more (the lookup failed) or
the create call, then the remaining repositories from the provider state so
reached. -/
theorem ensureWebhooks.loop_cons {σ : Type} (vcsClient : VcsClient σ)
    (fullUrl secret repo : String) (rest : List String) (st : σ) :
    (ensureWebhooks.loop vcsClient fullUrl secret (repo :: rest) st []).2 =
      if lookupPasses (vcsClient.GetHookByUrl st repo fullUrl).1.2 then
        Event.GetHookByUrl repo fullUrl (vcsClient.GetHookByUrl st repo fullUrl).1.2 ::
          Event.CreateHook repo fullUrl secret
            (vcsClient.CreateHook (vcsClient.GetHookByUrl st repo fullUrl).2 repo fullUrl
              secret).1 ::
          (ensureWebhooks.loop vcsClient fullUrl secret rest
            (vcsClient.CreateHook (vcsClient.GetHookByUrl st repo fullUrl).2 repo fullUrl
              secret).2 []).2
      else
        Event.GetHookByUrl repo fullUrl (vcsClient.GetHookByUrl st repo fullUrl).1.2 ::
          (ensureWebhooks.loop vcsClient fullUrl secret rest
            (vcsClient.GetHookByUrl st repo fullUrl).2 []).2 := by
  simp only [ensureWebhooks.loop]
  by_cases h : lookupPasses (vcsClient.GetHookByUrl st repo fullUrl).1.2
  · have h' : ¬ ((vcsClient.GetHookByUrl st repo fullUrl).1.2 ≠ none ∧
        (vcsClient.GetHookByUrl st repo fullUrl).1.2 ≠ some Error.ErrHookNotFound) := by
      unfold lookupPasses at h
      tauto
    rw [if_neg h', if_pos h, ensureWebhooks.loop_trace]
    simp
  · have h' : (vcsClient.GetHookByUrl st repo fullUrl).1.2 ≠ none ∧
        (vcsClient.GetHookByUrl st repo fullUrl).1.2 ≠ some Error.ErrHookNotFound := by
      unfold lookupPasses at h
      tauto
    rw [if_pos h', if_neg h, ensureWebhooks.loop_trace]
    simp

/-- Every call of the loop is about one of the repositories it walks over, and
carries the URL and the secret the loop was given. -/
theorem ensureWebhooks.loop_events {σ : Type} (vcsClient : VcsClient σ)
    (fullUrl secret : String) (keys : List String) :
    ∀ (st : σ), ∀ e ∈ (ensureWebhooks.loop vcsClient fullUrl secret keys st []).2,
      (∃ repo ∈ keys, ∃ err, e = Event.GetHookByUrl repo fullUrl err) ∨
      (∃ repo ∈ keys, ∃ err, e = Event.CreateHook repo fullUrl secret err) := by
  induction keys with
  | nil => intro st e he; simp [ensureWebhooks.loop] at he
  | cons repo rest ih =>
    intro st e he
    rw [ensureWebhooks.loop_cons] at he
    split at he
    · rcases List.mem_cons.mp he with h | h
      · exact Or.inl ⟨repo, List.mem_cons_self _ _, _, h⟩
      · rcases List.mem_cons.mp h with h | h
        · exact Or.inr ⟨repo, List.mem_cons_self _ _, _, h⟩
        · rcases ih _ e h with ⟨r, hr, x⟩ | ⟨r, hr, x⟩
          · exact Or.inl ⟨r, List.mem_cons_of_mem _ hr, x⟩
          · exact Or.inr ⟨r, List.mem_cons_of_mem _ hr, x⟩
    · rcases List.mem_cons.mp he with h | h
      · exact Or.inl ⟨repo, List.mem_cons_self _ _, _, h⟩
      · rcases ih _ e h with ⟨r, hr, x⟩ | ⟨r, hr, x⟩
        · exact Or.inl ⟨r, List.mem_cons_of_mem _ hr, x⟩
        · exact Or.inr ⟨r, List.mem_cons_of_mem _ hr, x⟩

/-- Every repository the loop walks over gets its lookup. -/
theorem ensureWebhooks.loop_looks_up {σ : Type} (vcsClient : VcsClient σ)
    (fullUrl secret : String) (keys : List String) :
    ∀ (st : σ), ∀ r ∈ keys, ∃ err,
      Event.GetHookByUrl r fullUrl err ∈
        (ensureWebhooks.loop vcsClient fullUrl secret keys st []).2 := by
  induction keys with
  | nil => intro st r hr; simp at hr
  | cons repo rest ih =>
    intro st r hr
    rw [ensureWebhooks.loop_cons]
    rcases List.mem_cons.mp hr with h | h
    · subst h
      split
      · exact ⟨_, List.mem_cons_self _ _⟩
      · exact ⟨_, List.mem_cons_self _ _⟩
    · split
      · obtain ⟨err, herr⟩ := ih _ r h
        exact ⟨err, List.mem_cons_of_mem _ (List.mem_cons_of_mem _ herr)⟩
      · obtain ⟨err, herr⟩ := ih _ r h
        exact ⟨err, List.mem_cons_of_mem _ herr⟩

/-- The loop looks a repository up as many times as it occurs among the keys, and
creates a hook for it at most that many times. -/
theorem ensureWebhooks.loop_counts {σ : Type} (vcsClient : VcsClient σ)
    (fullUrl secret r : String) (keys : List String) :
    ∀ (st : σ),
      lookupCount r (ensureWebhooks.loop vcsClient fullUrl secret keys st []).2 =
          keys.count r ∧
        createCount r (ensureWebhooks.loop vcsClient fullUrl secret keys st []).2 ≤
          keys.count r := by
  induction keys with
  | nil => intro st; simp [ensureWebhooks.loop, lookupCount, createCount]
  | cons repo rest ih =>
    intro st
    rw [ensureWebhooks.loop_cons]
    split
    · obtain ⟨h1, h2⟩ := ih (vcsClient.CreateHook (vcsClient.GetHookByUrl st repo fullUrl).2
        repo fullUrl secret).2
      by_cases hr : repo = r
      · subst hr
        simp only [lookupCount, createCount, if_true, List.count_cons_self]
        omega
      · have hr' : r ≠ repo := fun e => hr e.symm
        simp only [lookupCount, createCount, hr, if_false, List.count_cons_of_ne hr']
        omega
    · obtain ⟨h1, h2⟩ := ih (vcsClient.GetHookByUrl st repo fullUrl).2
      by_cases hr : repo = r
      · subst hr
        simp only [lookupCount, createCount, if_true, List.count_cons_self]
        omega
      · have hr' : r ≠ repo := fun e => hr e.symm
        simp only [lookupCount, createCount, hr, if_false, List.count_cons_of_ne hr']
        omega

/-- In the loop over pairwise distinct repositories, a hook is created for a
repository exactly when its lookup passed, and a repository whose lookup failed gets
no create call. -/
theorem ensureWebhooks.loop_creates {σ : Type} (vcsClient : VcsClient σ)
    (fullUrl secret : String) (keys : List String) (hnd : keys.Nodup) :
    ∀ (st : σ) (r : String),
      ((∃ err, Event.CreateHook r fullUrl secret err ∈
            (ensureWebhooks.loop vcsClient fullUrl secret keys st []).2) ↔
        ∃ err, lookupPasses err ∧ Event.GetHookByUrl r fullUrl err ∈
            (ensureWebhooks.loop vcsClient fullUrl secret keys st []).2) ∧
      ∀ err, Event.GetHookByUrl r fullUrl err ∈
            (ensureWebhooks.loop vcsClient fullUrl secret keys st []).2 →
          ¬ lookupPasses err →
          ∀ url sec err2, Event.CreateHook r url sec err2 ∉
            (ensureWebhooks.loop vcsClient fullUrl secret keys st []).2 := by
  induction keys with
  | nil => intro st r; simp [ensureWebhooks.loop]
  | cons repo rest ih =>
    intro st r
    have hnd' := List.nodup_cons.mp hnd
    have hrest : ∀ (st' : σ) (e : Event),
        e ∈ (ensureWebhooks.loop vcsClient fullUrl secret rest st' []).2 →
        e.repo ≠ some repo := by
      intro st' e he
      rcases ensureWebhooks.loop_events vcsClient fullUrl secret rest st' e he with
        ⟨q, hq, x, rfl⟩ | ⟨q, hq, x, rfl⟩
      · intro h
        simp only [Event.repo, Option.some.injEq] at h
        exact hnd'.1 (h ▸ hq)
      · intro h
        simp only [Event.repo, Option.some.injEq] at h
        exact hnd'.1 (h ▸ hq)
    rw [ensureWebhooks.loop_cons]
    by_cases hp : lookupPasses (vcsClient.GetHookByUrl st repo fullUrl).1.2
    · rw [if_pos hp]
      obtain ⟨ih1, ih2⟩ := ih hnd'.2 (vcsClient.CreateHook
        (vcsClient.GetHookByUrl st repo fullUrl).2 repo fullUrl secret).2 r
      by_cases hr : repo = r
      · subst hr
        refine ⟨⟨fun _ => ⟨_, hp, List.mem_cons_self _ _⟩,
          fun _ => ⟨_, List.mem_cons_of_mem _ (List.mem_cons_self _ _)⟩⟩, ?_⟩
        intro err hmem hfail
        exfalso
        rcases List.mem_cons.mp hmem with h | h
        · simp only [Event.GetHookByUrl.injEq, true_and] at h
          exact hfail (h ▸ hp)
        · rcases List.mem_cons.mp h with h | h
          · cases h
          · exact hrest _ _ h rfl
      · have hne : ∀ (x : Option Error), Event.GetHookByUrl r fullUrl x ≠
            Event.GetHookByUrl repo fullUrl (vcsClient.GetHookByUrl st repo fullUrl).1.2 := by
          intro x h
          simp only [Event.GetHookByUrl.injEq] at h
          exact hr h.1.symm
        constructor
        · constructor
          · rintro ⟨err, hmem⟩
            rcases List.mem_cons.mp hmem with h | h
            · cases h
            · rcases List.mem_cons.mp h with h | h
              · simp only [Event.CreateHook.injEq] at h
                exact absurd h.1.symm hr
              · obtain ⟨e2, hp2, hm2⟩ := ih1.mp ⟨err, h⟩
                exact ⟨e2, hp2, List.mem_cons_of_mem _ (List.mem_cons_of_mem _ hm2)⟩
          · rintro ⟨err, hpass, hmem⟩
            rcases List.mem_cons.mp hmem with h | h
            · exact absurd h (hne err)
            · rcases List.mem_cons.mp h with h | h
              · cases h
              · obtain ⟨e2, hm2⟩ := ih1.mpr ⟨err, hpass, h⟩
                exact ⟨e2, List.mem_cons_of_mem _ (List.mem_cons_of_mem _ hm2)⟩
        · intro err hmem hfail url sec err2 hc
          rcases List.mem_cons.mp hmem with h | h
          · exact absurd h (hne err)
          · rcases List.mem_cons.mp h with h | h
            · cases h
            · rcases List.mem_cons.mp hc with h2 | h2
              · cases h2
              · rcases List.mem_cons.mp h2 with h2 | h2
                · simp only [Event.CreateHook.injEq] at h2
                  exact absurd h2.1.symm hr
                · exact ih2 err h hfail url sec err2 h2
    · rw [if_neg hp]
      obtain ⟨ih1, ih2⟩ := ih hnd'.2 (vcsClient.GetHookByUrl st repo fullUrl).2 r
      by_cases hr : repo = r
      · subst hr
        constructor
        · constructor
          · rintro ⟨err, hmem⟩
            rcases List.mem_cons.mp hmem with h | h
            · cases h
            · exact absurd rfl (hrest _ _ h)
          · rintro ⟨err, hpass, hmem⟩
            rcases List.mem_cons.mp hmem with h | h
            · simp only [Event.GetHookByUrl.injEq, true_and] at h
              exact absurd (h ▸ hpass) hp
            · exact absurd rfl (hrest _ _ h)
        · intro err _ _ url sec err2 hc
          rcases List.mem_cons.mp hc with h | h
          · cases h
          · exact hrest _ _ h rfl
      · have hne : ∀ (x : Option Error), Event.GetHookByUrl r fullUrl x ≠
            Event.GetHookByUrl repo fullUrl (vcsClient.GetHookByUrl st repo fullUrl).1.2 := by
          intro x h
          simp only [Event.GetHookByUrl.injEq] at h
          exact hr h.1.symm
        constructor
        · constructor
          · rintro ⟨err, hmem⟩
            rcases List.mem_cons.mp hmem with h | h
            · cases h
            · obtain ⟨e2, hp2, hm2⟩ := ih1.mp ⟨err, h⟩
              exact ⟨e2, hp2, List.mem_cons_of_mem _ hm2⟩
          · rintro ⟨err, hpass, hmem⟩
            rcases List.mem_cons.mp hmem with h | h
            · exact absurd h (hne err)
            · obtain ⟨e2, hm2⟩ := ih1.mpr ⟨err, hpass, h⟩
              exact ⟨e2, List.mem_cons_of_mem _ hm2⟩
        · intro err hmem hfail url sec err2 hc
          rcases List.mem_cons.mp hmem with h | h
          · exact absurd h (hne err)
          · rcases List.mem_cons.mp hc with h2 | h2
            · cases h2
            · exact ih2 err h hfail url sec err2 h2

/-! ## `ensureWebhooks`: the claims -/

theorem ensureWebhooks.of_preconditions {U σ : Type} (L : NetUrl U) (viper : Viper)
    (vcsClient : VcsClient σ) (cfg : ServerConfig) (st : σ)
    (hens : viper.GetBool "ensure-webhooks" = true)
    (hmon : viper.GetBool "monitor-all-applications" = true)
    (hbase : viper.GetString "webhook-url-base" ≠ "")
    (hjoin : (ensureWebhooks.fullUrl L (viper.GetString "webhook-url-base") cfg).2 = none) :
    ensureWebhooks L viper vcsClient cfg st =
      ({ err := none, cfg := cfg,
         trace := (ensureWebhooks.loop vcsClient
           (ensureWebhooks.fullUrl L (viper.GetString "webhook-url-base") cfg).1
           cfg.WebhookSecret cfg.VcsToArgoMap.VcsRepos.keys st []).2 },
        (ensureWebhooks.loop vcsClient
           (ensureWebhooks.fullUrl L (viper.GetString "webhook-url-base") cfg).1
           cfg.WebhookSecret cfg.VcsToArgoMap.VcsRepos.keys st []).1) := by
  unfold ensureWebhooks
  rw [hens, hmon]
  simp only [Bool.true_eq_false, if_false, if_neg hbase]
  generalize ensureWebhooks.fullUrl L (viper.GetString "webhook-url-base") cfg = fu at hjoin
  obtain ⟨url, err⟩ := fu
  simp only at hjoin
  subst hjoin
  rfl

/-- The trace of `ensureWebhooks` is empty or is the trace of its loop over the keys
of the map, run with the composed URL and the configured secret. -/
theorem ensureWebhooks.trace_cases {U σ : Type} (L : NetUrl U) (viper : Viper)
    (vcsClient : VcsClient σ) (cfg : ServerConfig) (st : σ) :
    (ensureWebhooks L viper vcsClient cfg st).1.trace = [] ∨
      (ensureWebhooks L viper vcsClient cfg st).1.trace =
        (ensureWebhooks.loop vcsClient
           (ensureWebhooks.fullUrl L (viper.GetString "webhook-url-base") cfg).1
           cfg.WebhookSecret cfg.VcsToArgoMap.VcsRepos.keys st []).2 := by
  by_cases hens : viper.GetBool "ensure-webhooks" = true
  · by_cases hmon : viper.GetBool "monitor-all-applications" = true
    · by_cases hbase : viper.GetString "webhook-url-base" = ""
      · left
        unfold ensureWebhooks
        simp [hens, hmon, hbase]
      · cases hjoin : (ensureWebhooks.fullUrl L (viper.GetString "webhook-url-base") cfg).2 with
        | none =>
          right
          rw [ensureWebhooks.of_preconditions L viper vcsClient cfg st hens hmon hbase hjoin]
        | some err =>
          left
          unfold ensureWebhooks
          rw [hens, hmon]
          simp only [Bool.true_eq_false, if_false, if_neg hbase]
          generalize ensureWebhooks.fullUrl L (viper.GetString "webhook-url-base") cfg = fu
            at hjoin
          obtain ⟨url, e⟩ := fu
          simp only at hjoin
          subst hjoin
          rfl
    · left
      unfold ensureWebhooks
      simp [hens, hmon]
  · left
    unfold ensureWebhooks
    simp [hens]

/-- A pass over the sample map with the sample provider: `R1` is not found and gets
its hook, the lookup of `R2` fails and `R2` is left alone, `R3` is still looked up
and, its hook being found, created again; the pass returns nil. -/
theorem ensureWebhooks_sample_pass :
    (ensureWebhooks NetUrl.plain (sampleViper true true "https://kubechecks.example.com")
        sampleVcsClient (sampleConfig "") 0).1.trace =
      [Event.GetHookByUrl "R1" "https://kubechecks.example.com/hooks"
          (some Error.ErrHookNotFound),
        Event.CreateHook "R1" "https://kubechecks.example.com/hooks" "s3cret" none,
        Event.GetHookByUrl "R2" "https://kubechecks.example.com/hooks"
          (some (Error.New "transport error")),
        Event.GetHookByUrl "R3" "https://kubechecks.example.com/hooks" none,
        Event.CreateHook "R3" "https://kubechecks.example.com/hooks" "s3cret"
          (some (Error.New "hook already exists"))] ∧
      (ensureWebhooks NetUrl.plain (sampleViper true true "https://kubechecks.example.com")
        sampleVcsClient (sampleConfig "") 0).1.err = none := by
  decide

/-- C5: once the preconditions pass (`ensure-webhooks` and `monitor-all-applications`
enabled, `webhook-url-base` non-empty, the URL join without error), `ensureWebhooks`
returns nil and has issued a hook lookup, with the composed URL, for every key of
the map, whatever the provider answers to any lookup or create call. -/
theorem ensureWebhooks_looks_up_every_repo {U σ : Type} (L : NetUrl U) (viper : Viper)
    (vcsClient : VcsClient σ) (cfg : ServerConfig) (st : σ)
    (hens : viper.GetBool "ensure-webhooks" = true)
    (hmon : viper.GetBool "monitor-all-applications" = true)
    (hbase : viper.GetString "webhook-url-base" ≠ "")
    (hjoin : (ensureWebhooks.fullUrl L (viper.GetString "webhook-url-base") cfg).2 = none) :
    (ensureWebhooks L viper vcsClient cfg st).1.err = none ∧
      ∀ r ∈ cfg.VcsToArgoMap.VcsRepos.keys, ∃ err,
        Event.GetHookByUrl r
            (ensureWebhooks.fullUrl L (viper.GetString "webhook-url-base") cfg).1 err ∈
          (ensureWebhooks L viper vcsClient cfg st).1.trace := by
  rw [ensureWebhooks.of_preconditions L viper vcsClient cfg st hens hmon hbase hjoin]
  exact ⟨rfl, fun r hr => ensureWebhooks.loop_looks_up vcsClient _ _ _ st r hr⟩

/-- C6: in a pass of `ensureWebhooks`, every provider call is a lookup or a create for
a key of the map and carries the composed callback URL, every create call carries
the configured secret as well; a create call is issued for a repository exactly
when its lookup returned no error or `ErrHookNotFound`, and a repository whose
lookup failed with another error gets no create call. -/
theorem ensureWebhooks_creates_iff_lookup_passes {U σ : Type} (L : NetUrl U)
    (viper : Viper) (vcsClient : VcsClient σ) (cfg : ServerConfig) (st : σ) (r : String) :
    (∀ e ∈ (ensureWebhooks L viper vcsClient cfg st).1.trace,
        (∃ repo ∈ cfg.VcsToArgoMap.VcsRepos.keys, ∃ err, e = Event.GetHookByUrl repo
          (ensureWebhooks.fullUrl L (viper.GetString "webhook-url-base") cfg).1 err) ∨
        (∃ repo ∈ cfg.VcsToArgoMap.VcsRepos.keys, ∃ err, e = Event.CreateHook repo
          (ensureWebhooks.fullUrl L (viper.GetString "webhook-url-base") cfg).1
          cfg.WebhookSecret err)) ∧
      ((∃ err, Event.CreateHook r
            (ensureWebhooks.fullUrl L (viper.GetString "webhook-url-base") cfg).1
            cfg.WebhookSecret err ∈ (ensureWebhooks L viper vcsClient cfg st).1.trace) ↔
        ∃ err, lookupPasses err ∧ Event.GetHookByUrl r
            (ensureWebhooks.fullUrl L (viper.GetString "webhook-url-base") cfg).1 err ∈
          (ensureWebhooks L viper vcsClient cfg st).1.trace) ∧
      ∀ err, Event.GetHookByUrl r
            (ensureWebhooks.fullUrl L (viper.GetString "webhook-url-base") cfg).1 err ∈
          (ensureWebhooks L viper vcsClient cfg st).1.trace →
        ¬ lookupPasses err →
        ∀ url sec err2, Event.CreateHook r url sec err2 ∉
          (ensureWebhooks L viper vcsClient cfg st).1.trace := by
  rcases ensureWebhooks.trace_cases L viper vcsClient cfg st with h | h
  · rw [h]
    simp
  · rw [h]
    have hc := ensureWebhooks.loop_creates vcsClient
      (ensureWebhooks.fullUrl L (viper.GetString "webhook-url-base") cfg).1
      cfg.WebhookSecret cfg.VcsToArgoMap.VcsRepos.keys cfg.VcsToArgoMap.VcsRepos.nodup st r
    exact ⟨ensureWebhooks.loop_events vcsClient _ _ _ st, hc.1, hc.2⟩

/-- C7: with `ensure-webhooks` enabled, if `monitor-all-applications` is disabled or
`webhook-url-base` is the empty string, `ensureWebhooks` returns an error and makes
no call to the provider, whose state is untouched. -/
theorem ensureWebhooks_configuration_error {U σ : Type} (L : NetUrl U) (viper : Viper)
    (vcsClient : VcsClient σ) (cfg : ServerConfig) (st : σ)
    (hens : viper.GetBool "ensure-webhooks" = true)
    (hbad : viper.GetBool "monitor-all-applications" = false ∨
      viper.GetString "webhook-url-base" = "") :
    (ensureWebhooks L viper vcsClient cfg st).1.err ≠ none ∧
      (ensureWebhooks L viper vcsClient cfg st).1.trace = [] ∧
      (ensureWebhooks L viper vcsClient cfg st).2 = st := by
  unfold ensureWebhooks
  by_cases hmon : viper.GetBool "monitor-all-applications" = true
  · rcases hbad with h | h
    · rw [hmon] at h
      cases h
    · simp [hens, hmon, h]
  · simp [hens, hmon]

/-- C8: with `ensure-webhooks` disabled, whatever the map and the rest of the
configuration, `ensureWebhooks` returns nil and makes no lookup and no create call;
provider state and configuration are untouched. -/
theorem ensureWebhooks_disabled {U σ : Type} (L : NetUrl U) (viper : Viper)
    (vcsClient : VcsClient σ) (cfg : ServerConfig) (st : σ)
    (hens : viper.GetBool "ensure-webhooks" = false) :
    (ensureWebhooks L viper vcsClient cfg st).1.err = none ∧
      (ensureWebhooks L viper vcsClient cfg st).1.trace = [] ∧
      (ensureWebhooks L viper vcsClient cfg st).2 = st ∧
      (ensureWebhooks L viper vcsClient cfg st).1.cfg = cfg := by
  unfold ensureWebhooks
  simp [hens]

/-- C10: in a pass of `ensureWebhooks` over any map, every repository receives at
most one lookup call and at most one create call, none at all when it is not a key
of the map, and every provider call is about a key of the map. -/
theorem ensureWebhooks_at_most_once {U σ : Type} (L : NetUrl U) (viper : Viper)
    (vcsClient : VcsClient σ) (cfg : ServerConfig) (st : σ) (r : String) :
    lookupCount r (ensureWebhooks L viper vcsClient cfg st).1.trace ≤ 1 ∧
      createCount r (ensureWebhooks L viper vcsClient cfg st).1.trace ≤ 1 ∧
      (r ∉ cfg.VcsToArgoMap.VcsRepos.keys →
        lookupCount r (ensureWebhooks L viper vcsClient cfg st).1.trace = 0 ∧
        createCount r (ensureWebhooks L viper vcsClient cfg st).1.trace = 0) ∧
      ∀ e ∈ (ensureWebhooks L viper vcsClient cfg st).1.trace,
        ∃ repo ∈ cfg.VcsToArgoMap.VcsRepos.keys, e.repo = some repo := by
  rcases ensureWebhooks.trace_cases L viper vcsClient cfg st with h | h
  · rw [h]
    simp [lookupCount, createCount]
  · rw [h]
    obtain ⟨h1, h2⟩ := ensureWebhooks.loop_counts vcsClient
      (ensureWebhooks.fullUrl L (viper.GetString "webhook-url-base") cfg).1
      cfg.WebhookSecret r cfg.VcsToArgoMap.VcsRepos.keys st
    have hle : cfg.VcsToArgoMap.VcsRepos.keys.count r ≤ 1 :=
      List.nodup_iff_count_le_one.mp cfg.VcsToArgoMap.VcsRepos.nodup r
    refine ⟨by omega, by omega, ?_, ?_⟩
    · intro hr
      have h0 : cfg.VcsToArgoMap.VcsRepos.keys.count r = 0 := List.count_eq_zero_of_not_mem hr
      omega
    · intro e he
      rcases ensureWebhooks.loop_events vcsClient _ _ _ st e he with
        ⟨q, hq, x, rfl⟩ | ⟨q, hq, x, rfl⟩
      · exact ⟨q, hq, rfl⟩
      · exact ⟨q, hq, rfl⟩

/-! ## `path.Clean` on paths without `.` and `..` segments -/

theorem splitSlash_ne_nil (p : List Char) : splitSlash p ≠ [] := by
  cases p with
  | nil => simp [splitSlash]
  | cons c t =>
    unfold splitSlash
    split
    · simp
    · split <;> simp

theorem splitSlash_eq_takeWhile_cons (t : List Char) :
    splitSlash t = t.takeWhile (fun x => decide (x ≠ '/')) ::
      (match t.dropWhile (fun x => decide (x ≠ '/')) with
       | [] => []
       | _ :: t' => splitSlash t') := by
  induction t with
  | nil => simp [splitSlash]
  | cons d t ih =>
    by_cases hd : d = '/'
    · subst hd
      simp [splitSlash]
    · rw [splitSlash, if_neg hd, ih]
      simp [List.takeWhile_cons, List.dropWhile_cons, hd]

theorem dropWhile_slash_cases (t : List Char) :
    t.dropWhile (fun x => decide (x ≠ '/')) = [] ∨
      ∃ t', t.dropWhile (fun x => decide (x ≠ '/')) = '/' :: t' := by
  induction t with
  | nil => simp
  | cons d t ih =>
    by_cases hd : d = '/'
    · subst hd
      right
      exact ⟨t, by simp [List.dropWhile_cons]⟩
    · simpa [List.dropWhile_cons, hd] using ih

theorem segmentChars_slash_cons (t : List Char) :
    segmentChars ('/' :: t) = segmentChars t := by
  simp [segmentChars, splitSlash]

theorem segmentChars_cons (c : Char) (t : List Char) (hc : c ≠ '/') :
    segmentChars (c :: t) = (c :: t.takeWhile (fun x => decide (x ≠ '/'))) ::
      segmentChars (t.dropWhile (fun x => decide (x ≠ '/'))) := by
  have h1 : splitSlash (c :: t) = (c :: t.takeWhile (fun x => decide (x ≠ '/'))) ::
      (match t.dropWhile (fun x => decide (x ≠ '/')) with
       | [] => []
       | _ :: t' => splitSlash t') := by
    rw [splitSlash, if_neg hc, splitSlash_eq_takeWhile_cons t]
  rcases dropWhile_slash_cases t with h | ⟨t', h⟩
  · rw [segmentChars, h1, h]
    simp [segmentChars, splitSlash]
  · rw [segmentChars, h1, h, segmentChars_slash_cons]
    simp [segmentChars]

/-- The loop of `path.Clean` never runs out of fuel: any two amounts of fuel that
cover the length of the rest give the same buffer, so the fuel `path.length` that
`path.Clean.chars` hands over is enough for every path. -/
theorem path.Clean.loop_fuel (rooted : Bool) (f1 : Nat) :
    ∀ (f2 : Nat) (rest out : List Char) (dotdot : Nat),
      rest.length ≤ f1 → rest.length ≤ f2 →
      path.Clean.loop rooted f1 rest out dotdot = path.Clean.loop rooted f2 rest out dotdot := by
  induction f1 with
  | zero =>
    intro f2 rest out dotdot h1 _
    have : rest = [] := List.length_eq_zero.mp (Nat.le_zero.mp h1)
    subst this
    cases f2 <;> simp [path.Clean.loop]
  | succ f1 ih =>
    intro f2 rest out dotdot h1 h2
    cases rest with
    | nil => cases f2 <;> simp [path.Clean.loop]
    | cons c t =>
      cases f2 with
      | zero => simp at h2
      | succ f2 =>
        have ht1 : t.length ≤ f1 := by simpa using h1
        have ht2 : t.length ≤ f2 := by simpa using h2
        have htail1 : t.tail.length ≤ f1 := by
          rw [List.length_tail]
          omega
        have htail2 : t.tail.length ≤ f2 := by
          rw [List.length_tail]
          omega
        have hd1 : (t.dropWhile (fun x => decide (x ≠ '/'))).length ≤ f1 :=
          le_trans (List.dropWhile_sublist _).length_le ht1
        have hd2 : (t.dropWhile (fun x => decide (x ≠ '/'))).length ≤ f2 :=
          le_trans (List.dropWhile_sublist _).length_le ht2
        simp only [path.Clean.loop]
        split_ifs <;>
          first
            | exact ih _ _ _ _ ht1 ht2
            | exact ih _ _ _ _ htail1 htail2
            | exact ih _ _ _ _ hd1 hd2

/-- On the rest of a rooted path that has no `.` and no `..` segment, the loop of
`path.Clean` pushes the segments of the rest one by one; the fuel `rest.length` is
enough. -/
theorem path.Clean.loop_plain (fuel : Nat) :
    ∀ (rest out : List Char), rest.length ≤ fuel →
      (∀ s ∈ segmentChars rest, s ≠ ['.'] ∧ s ≠ ['.', '.']) →
      path.Clean.loop true fuel rest out 1 = (segmentChars rest).foldl pushSegment out := by
  induction fuel with
  | zero =>
    intro rest out hlen _
    have : rest = [] := List.length_eq_zero.mp (Nat.le_zero.mp hlen)
    subst this
    simp [path.Clean.loop, segmentChars, splitSlash]
  | succ fuel ih =>
    intro rest out hlen hdots
    cases rest with
    | nil => simp [path.Clean.loop, segmentChars, splitSlash]
    | cons c t =>
      have hlen' : t.length ≤ fuel := by simpa using hlen
      by_cases hc : c = '/'
      · subst hc
        rw [segmentChars_slash_cons] at hdots ⊢
        simp only [path.Clean.loop, if_true]
        exact ih t out hlen' hdots
      · rw [segmentChars_cons c t hc] at hdots ⊢
        have helem := hdots _ (List.mem_cons_self _ _)
        have hnotdot : ¬ (c = '.' ∧ (t = [] ∨ t.head? = some '/')) := by
          rintro ⟨h1, h2⟩
          apply helem.1
          subst h1
          rcases h2 with h2 | h2
          · subst h2
            simp
          · cases t with
            | nil => simp
            | cons d t' =>
              simp only [List.head?_cons, Option.some.injEq] at h2
              subst h2
              simp
        have hnotdotdot : ¬ (c = '.' ∧ t.head? = some '.' ∧
            (t.tail = [] ∨ t.tail.head? = some '/')) := by
          rintro ⟨h1, h2, h3⟩
          apply helem.2
          subst h1
          cases t with
          | nil => simp at h2
          | cons d t' =>
            simp only [List.head?_cons, Option.some.injEq] at h2
            subst h2
            simp only [List.tail_cons] at h3
            rcases h3 with h3 | h3
            · subst h3
              simp
            · cases t' with
              | nil => simp
              | cons d' t'' =>
                simp only [List.head?_cons, Option.some.injEq] at h3
                subst h3
                simp
        simp only [path.Clean.loop, if_neg hc, if_neg hnotdot, if_neg hnotdotdot]
        rw [ih _ _ (le_trans (List.dropWhile_sublist _).length_le hlen')
          (fun s hs => hdots s (List.mem_cons_of_mem _ hs))]
        simp [pushSegment]

theorem joinSlashChars_cons (s : List Char) (rest : List (List Char)) :
    joinSlashChars (s :: rest) = if rest = [] then s else s ++ '/' :: joinSlashChars rest := by
  cases rest with
  | nil => simp [joinSlashChars]
  | cons t rest => simp [joinSlashChars]

theorem foldl_pushSegment_of_two_le (segs : List (List Char)) :
    ∀ out : List Char, 2 ≤ out.length →
      segs.foldl pushSegment out =
        if segs = [] then out else out ++ '/' :: joinSlashChars segs := by
  induction segs with
  | nil => intro out _; simp
  | cons s rest ih =>
    intro out hout
    have h1 : out.length ≠ 1 := by omega
    have hpush : pushSegment out s = out ++ '/' :: s := by simp [pushSegment, h1]
    rw [List.foldl_cons, hpush, ih _ (by simp; omega), joinSlashChars_cons]
    by_cases hr : rest = []
    · simp [hr]
    · simp [hr]

theorem foldl_pushSegment_root (segs : List (List Char)) (hne : ∀ s ∈ segs, s ≠ []) :
    segs.foldl pushSegment ['/'] = '/' :: joinSlashChars segs := by
  cases segs with
  | nil => simp [joinSlashChars]
  | cons s rest =>
    have hs : s ≠ [] := hne s (List.mem_cons_self _ _)
    have hpush : pushSegment ['/'] s = '/' :: s := by simp [pushSegment]
    have hlen : 2 ≤ ('/' :: s).length := by
      have : 0 < s.length := List.length_pos.mpr hs
      simp only [List.length_cons]
      omega
    rw [List.foldl_cons, hpush, foldl_pushSegment_of_two_le rest _ hlen, joinSlashChars_cons]
    by_cases hr : rest = []
    · simp [hr]
    · simp [hr]

theorem splitSlash_no_slash (p : List Char) : ∀ s ∈ splitSlash p, '/' ∉ s := by
  induction p with
  | nil => simp [splitSlash]
  | cons c t ih =>
    intro s hs
    by_cases hc : c = '/'
    · subst hc
      simp only [splitSlash, if_true, List.mem_cons] at hs
      rcases hs with h | h
      · subst h
        simp
      · exact ih s h
    · rw [splitSlash, if_neg hc] at hs
      cases hsp : splitSlash t with
      | nil => exact absurd hsp (splitSlash_ne_nil t)
      | cons h r =>
        rw [hsp] at hs ih
        simp only [List.mem_cons] at hs
        rcases hs with h1 | h1
        · subst h1
          have := ih h (List.mem_cons_self _ _)
          intro hm
          rcases List.mem_cons.mp hm with h2 | h2
          · exact hc h2.symm
          · exact this h2
        · exact ih s (List.mem_cons_of_mem _ h1)

theorem segmentChars_spec (p : List Char) : ∀ s ∈ segmentChars p, s ≠ [] ∧ '/' ∉ s := by
  intro s hs
  have h := List.mem_filter.mp hs
  exact ⟨by simpa using h.2, splitSlash_no_slash p s h.1⟩

theorem splitSlash_append_slash (a b : List Char) :
    splitSlash (a ++ '/' :: b) = splitSlash a ++ splitSlash b := by
  induction a with
  | nil => simp [splitSlash]
  | cons c a ih =>
    by_cases hc : c = '/'
    · subst hc
      simp [splitSlash, ih]
    · rw [List.cons_append, splitSlash, if_neg hc, ih, splitSlash, if_neg hc]
      cases hsp : splitSlash a with
      | nil => exact absurd hsp (splitSlash_ne_nil a)
      | cons h r => simp

theorem segmentChars_append_slash (a b : List Char) :
    segmentChars (a ++ '/' :: b) = segmentChars a ++ segmentChars b := by
  simp [segmentChars, splitSlash_append_slash]

theorem splitSlash_of_no_slash (s : List Char) (hs : '/' ∉ s) : splitSlash s = [s] := by
  induction s with
  | nil => simp [splitSlash]
  | cons c t ih =>
    have hc : c ≠ '/' := fun e => hs (e ▸ List.mem_cons_self _ _)
    have ht : '/' ∉ t := fun h => hs (List.mem_cons_of_mem _ h)
    rw [splitSlash, if_neg hc, ih ht]

theorem segmentChars_of_segment (s : List Char) (hne : s ≠ []) (hs : '/' ∉ s) :
    segmentChars s = [s] := by
  simp [segmentChars, splitSlash_of_no_slash s hs, hne]

theorem segmentChars_joinSlashChars (segs : List (List Char))
    (h : ∀ s ∈ segs, s ≠ [] ∧ '/' ∉ s) : segmentChars (joinSlashChars segs) = segs := by
  induction segs with
  | nil => simp [joinSlashChars, segmentChars, splitSlash]
  | cons s rest ih =>
    have hs := h s (List.mem_cons_self _ _)
    have hrest : ∀ x ∈ rest, x ≠ [] ∧ '/' ∉ x := fun x hx => h x (List.mem_cons_of_mem _ hx)
    rw [joinSlashChars_cons]
    by_cases hr : rest = []
    · simp [hr, segmentChars_of_segment s hs.1 hs.2]
    · rw [if_neg hr, segmentChars_append_slash, segmentChars_of_segment s hs.1 hs.2, ih hrest]
      simp

/-- `path.Clean` on a rooted path without `.` and `..` segments: the root and the
segments, one `/` between neighbours. -/
theorem path.Clean.chars_rooted (rest : List Char)
    (hdots : ∀ s ∈ segmentChars rest, s ≠ ['.'] ∧ s ≠ ['.', '.']) :
    path.Clean.chars ('/' :: rest) = '/' :: joinSlashChars (segmentChars rest) := by
  unfold path.Clean.chars
  simp only [List.cons_ne_nil, if_false, List.head?_cons, decide_True, if_true, List.tail_cons,
    List.length_cons]
  rw [path.Clean.loop_plain _ rest ['/'] (Nat.le_succ _) hdots,
    foldl_pushSegment_root _ (fun s hs => (segmentChars_spec rest s hs).1)]
  simp

/-! ## Composition of the callback URL -/

theorem segments_dots (p : String) (h : ∀ s ∈ segments p, s ≠ "." ∧ s ≠ "..") :
    ∀ s ∈ segmentChars p.data, s ≠ ['.'] ∧ s ≠ ['.', '.'] := by
  intro s hs
  have hm : String.mk s ∈ segments p := List.mem_map.mpr ⟨s, hs, rfl⟩
  obtain ⟨h1, h2⟩ := h _ hm
  constructor
  · intro e
    subst e
    exact h1 rfl
  · intro e
    subst e
    exact h2 rfl

theorem segments_map_data (p : String) : (segments p).map String.data = segmentChars p.data := by
  simp [segments, Function.comp_def]

theorem hooksPath_data (pre : String) :
    (hooksPath pre).data = '/' :: joinSlashChars (segmentChars pre.data ++ ["hooks".data]) := by
  simp only [hooksPath, joinSlash, String.data_append, List.map_append, segments_map_data]
  rfl

theorem not_hasSuffix_slash_of_getLast (s : String) (c : Char) (hc : c ≠ '/')
    (h : s.data.getLast? = some c) : strings.HasSuffix s "/" = false := by
  unfold strings.HasSuffix
  rw [Bool.eq_false_iff]
  intro hsuf
  have hsuf' : ['/'] <:+ s.data := by
    have : "/".data = ['/'] := rfl
    rw [this] at hsuf
    simpa using hsuf
  obtain ⟨t, ht⟩ := hsuf'
  rw [← ht] at h
  simp at h
  exact hc h.symm

theorem joinSlashChars_append_singleton (segs : List (List Char)) (last : List Char) :
    ∃ x, joinSlashChars (segs ++ [last]) = x ++ last := by
  induction segs with
  | nil => exact ⟨[], by simp [joinSlashChars]⟩
  | cons s rest ih =>
    obtain ⟨x, hx⟩ := ih
    refine ⟨s ++ '/' :: x, ?_⟩
    rw [List.cons_append, joinSlashChars_cons, if_neg (by simp), hx]
    simp

theorem hooksPath_not_hasSuffix_slash (pre : String) :
    strings.HasSuffix (hooksPath pre) "/" = false := by
  apply not_hasSuffix_slash_of_getLast _ 's' (by decide)
  rw [hooksPath_data]
  obtain ⟨x, hx⟩ := joinSlashChars_append_singleton (segmentChars pre.data) "hooks".data
  rw [hx, ← List.cons_append, List.getLast?_append_of_ne_nil _ (by decide)]
  rfl

theorem segmentChars_hooks : segmentChars "hooks".data = ["hooks".data] := by decide

theorem path.Join_hooks (pre : String) (hdots : ∀ s ∈ segments pre, s ≠ "." ∧ s ≠ "..") :
    path.Join ["/", pre, KubeChecksHooksPathPrefix] = hooksPath pre := by
  have hslash : "/".data = ['/'] := rfl
  have hhooks : KubeChecksHooksPathPrefix.data = '/' :: "hooks".data := rfl
  have hloop : path.Join.loop ["/", pre, KubeChecksHooksPathPrefix] [] =
      '/' :: ('/' :: (pre.data ++ '/' :: ('/' :: "hooks".data))) := by
    simp [path.Join.loop, hslash, hhooks]
  have hsegs : segmentChars ('/' :: (pre.data ++ '/' :: ('/' :: "hooks".data))) =
      segmentChars pre.data ++ ["hooks".data] := by
    rw [segmentChars_slash_cons, segmentChars_append_slash, segmentChars_slash_cons,
      segmentChars_hooks]
  have hsum : ¬ (List.map (fun e : String => e.data.length)
      ["/", pre, KubeChecksHooksPathPrefix]).sum = 0 := by
    simp only [List.map_cons, List.sum_cons, hslash, List.length_cons]
    omega
  apply String.ext
  rw [path.Join, if_neg hsum, hloop, hooksPath_data]
  simp only [path.Clean]
  rw [path.Clean.chars_rooted, hsegs]
  rw [hsegs]
  intro s hs
  rcases List.mem_append.mp hs with h | h
  · exact segments_dots pre hdots s h
  · simp only [List.mem_singleton] at h
    subst h
    constructor <;> decide

theorem url.URL.JoinPath.path_hooks (pre : String)
    (hdots : ∀ s ∈ segments pre, s ≠ "." ∧ s ≠ "..") :
    url.URL.JoinPath.path "/" [pre, KubeChecksHooksPathPrefix] = hooksPath pre := by
  have h1 : strings.HasPrefix "/" "/" = true := by decide
  have h2 : strings.HasSuffix KubeChecksHooksPathPrefix "/" = false := by decide
  simp only [url.URL.JoinPath.path, h1, Bool.true_eq_false, if_false, List.getLastD_cons,
    List.getLastD_nil, h2, Bool.false_eq_true, false_and, path.Join_hooks pre hdots]

theorem path.Join_rooted_hooksPath (b pre : String) (bt : List Char)
    (hb : b.data = '/' :: bt)
    (hbdots : ∀ s ∈ segmentChars bt, s ≠ ['.'] ∧ s ≠ ['.', '.'])
    (hdots : ∀ s ∈ segments pre, s ≠ "." ∧ s ≠ "..") :
    (path.Join [b, hooksPath pre]).data =
      '/' :: joinSlashChars (segmentChars bt ++ (segmentChars pre.data ++ ["hooks".data])) := by
  have hbne : b ≠ "" := by
    intro e
    rw [e] at hb
    cases hb
  have hloop : path.Join.loop [b, hooksPath pre] [] = '/' :: (bt ++ '/' :: (hooksPath pre).data) := by
    simp [path.Join.loop, hbne, hb]
  have hsum : ¬ (List.map (fun e : String => e.data.length) [b, hooksPath pre]).sum = 0 := by
    simp only [List.map_cons, List.sum_cons, hb, List.length_cons]
    omega
  have hH : ∀ s ∈ segmentChars pre.data ++ ["hooks".data], s ≠ [] ∧ '/' ∉ s := by
    intro s hs
    rcases List.mem_append.mp hs with h | h
    · exact segmentChars_spec _ s h
    · simp only [List.mem_singleton] at h
      subst h
      constructor <;> decide
  have hsegs : segmentChars (bt ++ '/' :: (hooksPath pre).data) =
      segmentChars bt ++ (segmentChars pre.data ++ ["hooks".data]) := by
    rw [segmentChars_append_slash, hooksPath_data, segmentChars_slash_cons,
      segmentChars_joinSlashChars _ hH]
  rw [path.Join, if_neg hsum, hloop]
  simp only [path.Clean]
  rw [path.Clean.chars_rooted, hsegs]
  rw [hsegs]
  intro s hs
  rcases List.mem_append.mp hs with h | h
  · exact hbdots s h
  · rcases List.mem_append.mp h with h | h
    · exact segments_dots pre hdots s h
    · simp only [List.mem_singleton] at h
      subst h
      constructor <;> decide

theorem composedPath_data (bp pre : String) :
    (composedPath bp pre).data =
      (if strings.HasPrefix bp "/" then ['/'] else []) ++
        joinSlashChars (segmentChars bp.data ++ (segmentChars pre.data ++ ["hooks".data])) := by
  simp only [composedPath, joinSlash, String.data_append, List.map_append, segments_map_data,
    List.append_assoc]
  split <;> rfl

theorem url.URL.JoinPath.path_composed (bp pre : String)
    (hbdots : ∀ s ∈ segments bp, s ≠ "." ∧ s ≠ "..")
    (hdots : ∀ s ∈ segments pre, s ≠ "." ∧ s ≠ "..") :
    url.URL.JoinPath.path bp [hooksPath pre] = composedPath bp pre := by
  have hsuf := hooksPath_not_hasSuffix_slash pre
  have hslash : "/".data = ['/'] := rfl
  apply String.ext
  rw [composedPath_data]
  by_cases hpre : strings.HasPrefix bp "/" = true
  · have hbp : ∃ bt, bp.data = '/' :: bt := by
      unfold strings.HasPrefix at hpre
      rw [hslash] at hpre
      cases hd : bp.data with
      | nil => rw [hd] at hpre; simp at hpre
      | cons c bt =>
        rw [hd] at hpre
        simp at hpre
        exact ⟨bt, by rw [hpre]⟩
    obtain ⟨bt, hbt⟩ := hbp
    have hseg : segmentChars bp.data = segmentChars bt := by
      rw [hbt, segmentChars_slash_cons]
    simp only [url.URL.JoinPath.path, hpre, Bool.true_eq_false, if_false, List.getLastD_cons,
      List.getLastD_nil, hsuf, Bool.false_eq_true, false_and, if_true]
    rw [path.Join_rooted_hooksPath bp pre bt hbt (hseg ▸ segments_dots bp hbdots) hdots, hseg]
    rfl
  · have hpre' : strings.HasPrefix bp "/" = false := by simpa using hpre
    have hb : ("/" ++ bp).data = '/' :: bp.data := by simp [hslash]
    simp only [url.URL.JoinPath.path, hpre', if_true, List.getLastD_cons, List.getLastD_nil,
      hsuf, false_and, if_false, Bool.false_eq_true]
    rw [path.Join_rooted_hooksPath ("/" ++ bp) pre bp.data hb (segments_dots bp hbdots) hdots]
    simp

theorem hasDoubleSlash_append_of_no_slash (s t : List Char) (hs : '/' ∉ s) :
    hasDoubleSlash (s ++ t) = hasDoubleSlash t := by
  induction s with
  | nil => simp
  | cons c s ih =>
    have hc : c ≠ '/' := fun e => hs (e ▸ List.mem_cons_self _ _)
    have hs' : '/' ∉ s := fun h => hs (List.mem_cons_of_mem _ h)
    rw [← ih hs', List.cons_append]
    generalize s ++ t = l
    cases l with
    | nil => simp [hasDoubleSlash]
    | cons d r => simp [hasDoubleSlash, hc]

theorem joinSlashChars_head (segs : List (List Char)) (h : ∀ s ∈ segs, s ≠ [] ∧ '/' ∉ s) :
    (joinSlashChars segs).head? ≠ some '/' := by
  cases segs with
  | nil => simp [joinSlashChars]
  | cons s rest =>
    obtain ⟨hne, hns⟩ := h s (List.mem_cons_self _ _)
    cases s with
    | nil => exact absurd rfl hne
    | cons c s' =>
      have hc : c ≠ '/' := fun e => hns (e ▸ List.mem_cons_self _ _)
      rw [joinSlashChars_cons]
      split <;> simpa using hc

theorem hasDoubleSlash_slash_cons (l : List Char) (hh : l.head? ≠ some '/') :
    hasDoubleSlash ('/' :: l) = hasDoubleSlash l := by
  cases l with
  | nil => simp [hasDoubleSlash]
  | cons d r =>
    have hd : d ≠ '/' := by simpa using hh
    simp [hasDoubleSlash, hd]

theorem hasDoubleSlash_joinSlashChars (segs : List (List Char))
    (h : ∀ s ∈ segs, s ≠ [] ∧ '/' ∉ s) : hasDoubleSlash (joinSlashChars segs) = false := by
  induction segs with
  | nil => simp [joinSlashChars, hasDoubleSlash]
  | cons s rest ih =>
    have hs := h s (List.mem_cons_self _ _)
    have hrest : ∀ x ∈ rest, x ≠ [] ∧ '/' ∉ x := fun x hx => h x (List.mem_cons_of_mem _ hx)
    rw [joinSlashChars_cons]
    by_cases hr : rest = []
    · rw [if_pos hr]
      have := hasDoubleSlash_append_of_no_slash s [] hs.2
      simpa [hasDoubleSlash] using this
    · rw [if_neg hr, hasDoubleSlash_append_of_no_slash s _ hs.2,
        hasDoubleSlash_slash_cons _ (joinSlashChars_head rest hrest), ih hrest]

theorem hooksPrefix_eq_hooksPath {U : Type} (L : NetUrl U) (cfg : ServerConfig) (root : U)
    (hroot : L.Parse "/" = .ok root) (hrootPath : L.EscapedPath root = "/")
    (hstable : L.URLString (L.setPath root (hooksPath cfg.UrlPrefix)) = hooksPath cfg.UrlPrefix)
    (hdots : ∀ s ∈ segments cfg.UrlPrefix, s ≠ "." ∧ s ≠ "..") :
    hooksPrefix L cfg = hooksPath cfg.UrlPrefix := by
  simp only [hooksPrefix, url.JoinPath, hroot, url.URL.JoinPath, hrootPath,
    url.URL.JoinPath.path_hooks _ hdots, hstable, strings.TrimSuffix,
    hooksPath_not_hasSuffix_slash, Bool.false_eq_true, if_false]

theorem segmentChars_cons_cons (c d : Char) (t : List Char) (hc : c ≠ '/') (hd : d ≠ '/') :
    ∃ s0 srest, segmentChars (d :: t) = s0 :: srest ∧
      segmentChars (c :: d :: t) = (c :: s0) :: srest := by
  refine ⟨d :: t.takeWhile (fun x => decide (x ≠ '/')),
    segmentChars (t.dropWhile (fun x => decide (x ≠ '/'))), segmentChars_cons d t hd, ?_⟩
  rw [segmentChars_cons c (d :: t) hc]
  simp [List.takeWhile_cons, List.dropWhile_cons, hd]

theorem joinSlashChars_cons_cons (c : Char) (s0 : List Char) (srest : List (List Char)) :
    joinSlashChars ((c :: s0) :: srest) = c :: joinSlashChars (s0 :: srest) := by
  rw [joinSlashChars_cons, joinSlashChars_cons]
  split <;> simp

/-- A non-empty path without repeated slashes and without a trailing slash is its
segments written with one `/` between neighbours, after its leading `/` if any. -/
theorem joinSlashChars_segmentChars (l : List Char) :
    hasDoubleSlash l = false → l.getLast? ≠ some '/' → l ≠ [] →
      (if l.head? = some '/' then ['/'] else []) ++ joinSlashChars (segmentChars l) = l := by
  induction l with
  | nil => intro _ _ h; exact absurd rfl h
  | cons c t ih =>
    intro hN hlast _
    cases t with
    | nil =>
      have hc : c ≠ '/' := by simpa using hlast
      simp [hc, segmentChars, splitSlash, joinSlashChars]
    | cons d t' =>
      have hlast' : (d :: t').getLast? ≠ some '/' := by
        simpa [List.getLast?_cons_cons] using hlast
      have hN' : hasDoubleSlash (d :: t') = false := by
        simp only [hasDoubleSlash, Bool.or_eq_false_iff] at hN
        exact hN.2
      have ih' := ih hN' hlast' (List.cons_ne_nil _ _)
      by_cases hc : c = '/'
      · subst hc
        have hd : d ≠ '/' := by
          intro e
          subst e
          simp [hasDoubleSlash] at hN
        rw [segmentChars_slash_cons]
        simp only [List.head?_cons, Option.some.injEq, hd, if_false, List.nil_append] at ih'
        simp [ih']
      · simp only [List.head?_cons, Option.some.injEq, hc, if_false, List.nil_append]
        by_cases hd : d = '/'
        · subst hd
          simp only [List.head?_cons, if_true, List.singleton_append] at ih'
          rw [segmentChars_slash_cons] at ih'
          rw [segmentChars_cons c _ hc]
          simp only [List.takeWhile_cons, List.dropWhile_cons, ne_eq, not_true_eq_false,
            decide_False, Bool.false_eq_true, if_false]
          rw [segmentChars_slash_cons, joinSlashChars_cons]
          have ht : joinSlashChars (segmentChars t') = t' := by
            simpa using ih'
          have hne : segmentChars t' ≠ [] := by
            intro e
            rw [e] at ht
            have : t' = [] := by simpa [joinSlashChars] using ht.symm
            subst this
            simp at hlast
          rw [if_neg hne, ht]
          simp
        · obtain ⟨s0, srest, h1, h2⟩ := segmentChars_cons_cons c d t' hc hd
          simp only [List.head?_cons, Option.some.injEq, hd, if_false, List.nil_append] at ih'
          rw [h2, joinSlashChars_cons_cons, ← h1, ih']

theorem hasDoubleSlash_concat (l : List Char) (c : Char) :
    hasDoubleSlash (l ++ [c]) = false ↔
      hasDoubleSlash l = false ∧ ¬ (l.getLast? = some '/' ∧ c = '/') := by
  induction l with
  | nil => simp [hasDoubleSlash]
  | cons a t ih =>
    cases t with
    | nil => simp [hasDoubleSlash]
    | cons b t' =>
      have : (a :: b :: t' ++ [c]) = a :: (b :: (t' ++ [c])) := by simp
      rw [this, hasDoubleSlash, hasDoubleSlash, List.getLast?_cons_cons]
      have ih' : hasDoubleSlash (b :: (t' ++ [c])) = false ↔
          hasDoubleSlash (b :: t') = false ∧ ¬ ((b :: t').getLast? = some '/' ∧ c = '/') := by
        simpa using ih
      rw [Bool.or_eq_false_iff, Bool.or_eq_false_iff, ih']
      tauto

theorem strings.HasPrefix_slash_iff (s : String) :
    strings.HasPrefix s "/" = true ↔ s.data.head? = some '/' := by
  have hslash : "/".data = ['/'] := rfl
  unfold strings.HasPrefix
  rw [hslash]
  generalize s.data = l
  cases l with
  | nil => simp
  | cons c t =>
    simp only [List.isPrefixOf, Bool.and_true, beq_iff_eq, List.head?_cons, Option.some.injEq]
    exact eq_comm

theorem strings.TrimSuffix_slash_concat (s : String) (l : List Char) (c : Char)
    (hs : s.data = l ++ [c]) :
    (strings.TrimSuffix s "/").data = if c = '/' then l else l ++ [c] := by
  have hslash : "/".data = ['/'] := rfl
  unfold strings.TrimSuffix strings.HasSuffix
  rw [hslash, hs]
  by_cases hc : c = '/'
  · subst hc
    simp [List.isSuffixOf]
  · have hc' : ¬ '/' = c := fun e => hc e.symm
    simp [List.isSuffixOf, hc, hc', hs]

/-- Whatever `net/url` does when it parses, escapes and prints: if the base URL
parses, neither its path nor the URL prefix has a `.` or `..` segment, and printing
the hook path changes nothing, then `hooksPrefix` is the hook path of the spec and
the composed URL is the base URL printed with the callback path of the spec. -/
theorem ensureWebhooks.fullUrl_of_netUrl {U : Type} (L : NetUrl U) (cfg : ServerConfig)
    (urlBase : String) (root u : U)
    (hroot : L.Parse "/" = .ok root) (hrootPath : L.EscapedPath root = "/")
    (hstable : L.URLString (L.setPath root (hooksPath cfg.UrlPrefix)) = hooksPath cfg.UrlPrefix)
    (hbase : L.Parse urlBase = .ok u)
    (hbdots : ∀ s ∈ segments (L.EscapedPath u), s ≠ "." ∧ s ≠ "..")
    (hdots : ∀ s ∈ segments cfg.UrlPrefix, s ≠ "." ∧ s ≠ "..") :
    hooksPrefix L cfg = hooksPath cfg.UrlPrefix ∧
      ensureWebhooks.fullUrl L urlBase cfg =
        (L.URLString (L.setPath u (composedPath (L.EscapedPath u) cfg.UrlPrefix)), none) := by
  have hp := hooksPrefix_eq_hooksPath L cfg root hroot hrootPath hstable hdots
  refine ⟨hp, ?_⟩
  simp only [ensureWebhooks.fullUrl, url.JoinPath, hbase, url.URL.JoinPath, hp,
    url.URL.JoinPath.path_composed _ _ hbdots hdots]

/-! ## The plain `net/url` -/

theorem splitSlash_mem (l : List Char) : ∀ s ∈ splitSlash l, ∀ c ∈ s, c ∈ l := by
  induction l with
  | nil => simp [splitSlash]
  | cons a t ih =>
    intro s hs c hc
    by_cases ha : a = '/'
    · subst ha
      simp only [splitSlash, if_true, List.mem_cons] at hs
      rcases hs with h | h
      · subst h
        simp at hc
      · exact List.mem_cons_of_mem _ (ih s h c hc)
    · rw [splitSlash, if_neg ha] at hs
      cases hsp : splitSlash t with
      | nil => exact absurd hsp (splitSlash_ne_nil t)
      | cons h r =>
        rw [hsp] at hs ih
        simp only [List.mem_cons] at hs
        rcases hs with h1 | h1
        · subst h1
          rcases List.mem_cons.mp hc with h2 | h2
          · subst h2
            exact List.mem_cons_self _ _
          · exact List.mem_cons_of_mem _ (ih h (List.mem_cons_self _ _) c h2)
        · exact List.mem_cons_of_mem _ (ih s (List.mem_cons_of_mem _ h1) c hc)

theorem segmentChars_mem (l : List Char) : ∀ s ∈ segmentChars l, ∀ c ∈ s, c ∈ l := by
  intro s hs
  exact splitSlash_mem l s (List.mem_filter.mp hs).1

theorem mem_joinSlashChars (segs : List (List Char)) :
    ∀ c ∈ joinSlashChars segs, c = '/' ∨ ∃ s ∈ segs, c ∈ s := by
  induction segs with
  | nil => simp [joinSlashChars]
  | cons s rest ih =>
    intro c hc
    rw [joinSlashChars_cons] at hc
    split at hc
    · exact Or.inr ⟨s, List.mem_cons_self _ _, hc⟩
    · rcases List.mem_append.mp hc with h | h
      · exact Or.inr ⟨s, List.mem_cons_self _ _, h⟩
      · rcases List.mem_cons.mp h with h | h
        · exact Or.inl h
        · rcases ih c h with h | ⟨x, hx, hcx⟩
          · exact Or.inl h
          · exact Or.inr ⟨x, List.mem_cons_of_mem _ hx, hcx⟩

theorem all_plainChar_joinSlashChars (bp pre : List Char)
    (hb : bp.all plainChar = true) (hp : pre.all plainChar = true) :
    (joinSlashChars (segmentChars bp ++ (segmentChars pre ++ ["hooks".data]))).all plainChar =
      true := by
  rw [List.all_eq_true] at hb hp ⊢
  intro c hc
  rcases mem_joinSlashChars _ c hc with h | ⟨s, hs, hcs⟩
  · subst h
    decide
  · rcases List.mem_append.mp hs with h | h
    · exact hb c (segmentChars_mem bp s h c hcs)
    · rcases List.mem_append.mp h with h | h
      · exact hp c (segmentChars_mem pre s h c hcs)
      · simp only [List.mem_singleton] at h
        subst h
        have hk : ∀ x ∈ "hooks".data, plainChar x = true := by decide
        exact hk c hcs

theorem all_plainChar_composedPath (bp pre : String)
    (hb : bp.data.all plainChar = true) (hp : pre.data.all plainChar = true) :
    (composedPath bp pre).data.all plainChar = true := by
  rw [composedPath_data, List.all_append, all_plainChar_joinSlashChars _ _ hb hp]
  split <;> decide

theorem all_plainChar_hooksPath (pre : String) (hp : pre.data.all plainChar = true) :
    (hooksPath pre).data.all plainChar = true := by
  have h := all_plainChar_joinSlashChars [] pre.data (by decide) hp
  have hnil : segmentChars [] = [] := by decide
  rw [hnil, List.nil_append] at h
  rw [hooksPath_data, List.all_cons, h]
  decide

theorem NetUrl.plain.setPath_plain (u : String × String × String) (p : String)
    (h : p.data.all plainChar = true) : NetUrl.plain.setPath u p = (u.1, p, u.2.2) := by
  show (if p.data.all plainChar = true then (u.1, p, u.2.2) else u) = _
  rw [if_pos h]

theorem NetUrl.plain.URLString_data (o p q : String) :
    (NetUrl.plain.URLString (o, p, q)).data =
      o.data ++ (if o.data ≠ [] ∧ p.data ≠ [] ∧ p.data.head? ≠ some '/' then ['/'] else []) ++
        p.data ++ q.data := by
  have ho : o ≠ "" ↔ o.data ≠ [] := by
    constructor
    · intro h e
      exact h (String.ext e)
    · intro h e
      exact h (by rw [e])
  have hp : p ≠ "" ↔ p.data ≠ [] := by
    constructor
    · intro h e
      exact h (String.ext e)
    · intro h e
      exact h (by rw [e])
  show ((if o ≠ "" ∧ p ≠ "" ∧ p.data.head? ≠ some '/' then o ++ "/" ++ p else o ++ p) ++ q).data
    = _
  have hslash : "/".data = ['/'] := rfl
  by_cases hc : o ≠ "" ∧ p ≠ "" ∧ p.data.head? ≠ some '/'
  · have hc' : o.data ≠ [] ∧ p.data ≠ [] ∧ p.data.head? ≠ some '/' :=
      ⟨ho.mp hc.1, hp.mp hc.2.1, hc.2.2⟩
    rw [if_pos hc, if_pos hc']
    simp [String.data_append, hslash]
  · have hc' : ¬ (o.data ≠ [] ∧ p.data ≠ [] ∧ p.data.head? ≠ some '/') :=
      fun h => hc ⟨ho.mpr h.1, hp.mpr h.2.1, h.2.2⟩
    rw [if_neg hc, if_neg hc']
    simp [String.data_append]

theorem NetUrl.plain.hooksPrefix_eq (cfg : ServerConfig)
    (hplain : cfg.UrlPrefix.data.all plainChar = true)
    (hdots : ∀ s ∈ segments cfg.UrlPrefix, s ≠ "." ∧ s ≠ "..") :
    hooksPrefix NetUrl.plain cfg = hooksPath cfg.UrlPrefix := by
  apply hooksPrefix_eq_hooksPath NetUrl.plain cfg ("", "/", "") rfl rfl _ hdots
  rw [NetUrl.plain.setPath_plain _ _ (all_plainChar_hooksPath cfg.UrlPrefix hplain)]
  apply String.ext
  rw [NetUrl.plain.URLString_data]
  have : ("" : String).data = [] := rfl
  simp [this]

theorem plainAuthority_ne_nil (a : List Char) (h : plainAuthority a = true) : a ≠ [] := by
  intro e
  subst e
  simp [plainAuthority] at h

theorem NetUrl.plain.host_case (scheme rest : List Char)
    (hpre : scheme.isPrefixOf rest = true)
    (hv : plainAuthority ((rest.drop scheme.length).takeWhile (fun x => decide (x ≠ '/'))) =
      true) :
    rest = (scheme ++ (rest.drop scheme.length).takeWhile (fun x => decide (x ≠ '/'))) ++
        (rest.drop scheme.length).dropWhile (fun x => decide (x ≠ '/')) ∧
      scheme ++ (rest.drop scheme.length).takeWhile (fun x => decide (x ≠ '/')) ≠ [] ∧
      (scheme ++ (rest.drop scheme.length).takeWhile (fun x => decide (x ≠ '/'))).getLast? ≠
        some '/' ∧
      ((rest.drop scheme.length).dropWhile (fun x => decide (x ≠ '/')) = [] ∨
        ((rest.drop scheme.length).dropWhile (fun x => decide (x ≠ '/'))).head? = some '/') := by
  have hne := plainAuthority_ne_nil _ hv
  have hrest : scheme ++ rest.drop scheme.length = rest :=
    List.prefix_iff_eq_append.mp (List.isPrefixOf_iff_prefix.mp hpre)
  refine ⟨?_, ?_, ?_, ?_⟩
  · rw [List.append_assoc, List.takeWhile_append_dropWhile, hrest]
  · intro e
    exact hne (List.append_eq_nil.mp e).2
  · rw [List.getLast?_append_of_ne_nil _ hne]
    intro e
    have hm := List.mem_of_getLast?_eq_some e
    have := List.mem_takeWhile_imp hm
    simp at this
  · rcases dropWhile_slash_cases (rest.drop scheme.length) with h | ⟨t, h⟩
    · exact Or.inl h
    · exact Or.inr (by rw [h]; rfl)

theorem NetUrl.plain.scheme_isPrefixOf (rest : List Char) :
    (NetUrl.plain.scheme rest).isPrefixOf rest = true := by
  unfold NetUrl.plain.scheme
  split
  · assumption
  · split
    · assumption
    · simp

/-- What a successful parse of a plain URL tells: the string is what precedes the
path, the path and the query, one after the other; the path is plain; and if
something precedes the path, it does not end in `/` and the path is empty or
rooted. -/
theorem NetUrl.plain.Parse_ok (s origin bp q : String)
    (h : NetUrl.plain.Parse s = .ok (origin, bp, q)) :
    s.data = origin.data ++ bp.data ++ q.data ∧ bp.data.all plainChar = true ∧
      (origin.data = [] ∨
        (origin.data ≠ [] ∧ origin.data.getLast? ≠ some '/' ∧
          (bp.data = [] ∨ bp.data.head? = some '/'))) := by
  have hsplit : s.data.takeWhile (fun x => decide (x ≠ '?')) ++
      s.data.dropWhile (fun x => decide (x ≠ '?')) = s.data :=
    List.takeWhile_append_dropWhile _ _
  unfold NetUrl.plain.Parse at h
  simp only at h
  split_ifs at h with hs hv hv
  · simp only [Except.ok.injEq, Prod.mk.injEq] at h
    obtain ⟨ho, hb, hq⟩ := h
    obtain ⟨e1, e2, e3, e4⟩ := NetUrl.plain.host_case _ _
      (NetUrl.plain.scheme_isPrefixOf _) hv.1
    subst ho hb hq
    refine ⟨?_, hv.2.1, Or.inr ⟨e2, e3, e4⟩⟩
    exact hsplit.symm.trans (congrArg (fun l => l ++ _) e1)
  · simp only [Except.ok.injEq, Prod.mk.injEq] at h
    obtain ⟨ho, hb, hq⟩ := h
    subst ho hb hq
    exact ⟨hsplit.symm, hv.2.1, Or.inl rfl⟩

theorem joinSlashChars_append (X T : List (List Char)) (hX : X ≠ []) (hT : T ≠ []) :
    joinSlashChars (X ++ T) = joinSlashChars X ++ '/' :: joinSlashChars T := by
  induction X with
  | nil => exact absurd rfl hX
  | cons s rest ih =>
    rw [List.cons_append, joinSlashChars_cons, if_neg (by simp [hT]), joinSlashChars_cons]
    by_cases hr : rest = []
    · subst hr
      simp
    · rw [if_neg hr, ih hr]
      simp

theorem segmentChars_ne_nil (l : List Char) (hN : hasDoubleSlash l = false)
    (hlast : l.getLast? ≠ some '/') (hl : l ≠ []) : segmentChars l ≠ [] := by
  intro e
  have hrt := joinSlashChars_segmentChars l hN hlast hl
  rw [e] at hrt
  cases l with
  | nil => exact hl rfl
  | cons a t =>
    by_cases ha : a = '/'
    · subst ha
      cases t with
      | nil => simp at hlast
      | cons b t' => simp [joinSlashChars] at hrt
    · simp [joinSlashChars, ha] at hrt

/-- A non-empty path without repeated slashes, followed by further segments: joining
its segments and those with one `/` between neighbours, after its leading `/` if
any, gives the path without its trailing slash, a `/`, and the further segments
joined. -/
theorem joinSlashChars_block (l' : List Char) (c : Char)
    (hN : hasDoubleSlash (l' ++ [c]) = false) (T : List (List Char)) (hT : T ≠ []) :
    (if (l' ++ [c]).head? = some '/' then ['/'] else []) ++
        joinSlashChars (segmentChars (l' ++ [c]) ++ T) =
      (if c = '/' then l' else l' ++ [c]) ++ '/' :: joinSlashChars T := by
  have hN0 := hN
  rw [hasDoubleSlash_concat] at hN
  by_cases hc : c = '/'
  · subst hc
    rw [if_pos rfl]
    have hsegs : segmentChars (l' ++ ['/']) = segmentChars l' := by
      rw [segmentChars_append_slash]
      simp [segmentChars, splitSlash]
    rw [hsegs]
    by_cases hl : l' = []
    · subst hl
      simp [segmentChars, splitSlash]
    · have hlast : l'.getLast? ≠ some '/' := fun e => hN.2 ⟨e, rfl⟩
      have hrt := joinSlashChars_segmentChars l' hN.1 hlast hl
      have hsne := segmentChars_ne_nil l' hN.1 hlast hl
      have hhead : (l' ++ ['/']).head? = l'.head? := by
        cases l' with
        | nil => exact absurd rfl hl
        | cons a t => simp
      rw [joinSlashChars_append _ _ hsne hT, ← List.append_assoc, hhead, hrt]
  · rw [if_neg hc]
    have hlast : (l' ++ [c]).getLast? ≠ some '/' := by simpa using hc
    have hne : l' ++ [c] ≠ [] := by simp
    have hrt := joinSlashChars_segmentChars _ hN0 hlast hne
    have hsne := segmentChars_ne_nil _ hN0 hlast hne
    rw [joinSlashChars_append _ _ hsne hT, ← List.append_assoc, hrt]

theorem callbackSegments_spec (bp pre : String) :
    ∀ s ∈ segmentChars bp.data ++ (segmentChars pre.data ++ ["hooks".data]),
      s ≠ [] ∧ '/' ∉ s := by
  intro s hs
  rcases List.mem_append.mp hs with h | h
  · exact segmentChars_spec _ s h
  · rcases List.mem_append.mp h with h | h
    · exact segmentChars_spec _ s h
    · simp only [List.mem_singleton] at h
      subst h
      constructor <;> decide

theorem callbackPath_data (origin bp pre : String) :
    (callbackPath origin bp pre).data =
      (if origin.data = [] ∧ bp.data.head? ≠ some '/' then [] else ['/']) ++
        joinSlashChars (segmentChars bp.data ++ (segmentChars pre.data ++ ["hooks".data])) := by
  have ho : origin = "" ↔ origin.data = [] :=
    ⟨fun e => by rw [e], fun e => String.ext e⟩
  have hp : strings.HasPrefix bp "/" = false ↔ bp.data.head? ≠ some '/' := by
    rw [Ne, ← strings.HasPrefix_slash_iff]
    simp
  simp only [callbackPath, joinSlash, String.data_append, List.map_append, segments_map_data,
    List.append_assoc]
  by_cases hc : origin = "" ∧ strings.HasPrefix bp "/" = false
  · rw [if_pos hc, if_pos ⟨ho.mp hc.1, hp.mp hc.2⟩]
    rfl
  · rw [if_neg hc, if_neg (fun h => hc ⟨ho.mpr h.1, hp.mpr h.2⟩)]
    rfl

theorem callbackPath_normal (origin bp pre : String) :
    hasDoubleSlash (callbackPath origin bp pre).data = false ∧
      strings.HasSuffix (callbackPath origin bp pre) "/" = false := by
  have hH := callbackSegments_spec bp pre
  constructor
  · rw [callbackPath_data]
    split
    · rw [List.nil_append, hasDoubleSlash_joinSlashChars _ hH]
    · rw [List.singleton_append, hasDoubleSlash_slash_cons _ (joinSlashChars_head _ hH),
        hasDoubleSlash_joinSlashChars _ hH]
  · apply not_hasSuffix_slash_of_getLast _ 's' (by decide)
    rw [callbackPath_data, ← List.append_assoc (segmentChars bp.data)]
    obtain ⟨x, hx⟩ := joinSlashChars_append_singleton
      (segmentChars bp.data ++ segmentChars pre.data) "hooks".data
    rw [hx, ← List.append_assoc, List.getLast?_append_of_ne_nil _ (by decide)]
    rfl

/-- With the plain `net/url`: the composed URL is what precedes the path of the base
URL, the callback path of the spec, and the query of the base URL. -/
theorem NetUrl.plain.fullUrl_eq (cfg : ServerConfig) (urlBase origin bp q : String)
    (hbase : NetUrl.plain.Parse urlBase = .ok (origin, bp, q))
    (hplain : cfg.UrlPrefix.data.all plainChar = true)
    (hbdots : ∀ s ∈ segments bp, s ≠ "." ∧ s ≠ "..")
    (hdots : ∀ s ∈ segments cfg.UrlPrefix, s ≠ "." ∧ s ≠ "..") :
    ensureWebhooks.fullUrl NetUrl.plain urlBase cfg =
      (origin ++ callbackPath origin bp cfg.UrlPrefix ++ q, none) := by
  obtain ⟨_, hbplain, _⟩ := NetUrl.plain.Parse_ok urlBase origin bp q hbase
  have hstable : NetUrl.plain.URLString
      (NetUrl.plain.setPath ("", "/", "") (hooksPath cfg.UrlPrefix)) = hooksPath cfg.UrlPrefix := by
    rw [NetUrl.plain.setPath_plain _ _ (all_plainChar_hooksPath cfg.UrlPrefix hplain)]
    apply String.ext
    rw [NetUrl.plain.URLString_data]
    have : ("" : String).data = [] := rfl
    simp [this]
  have h := (ensureWebhooks.fullUrl_of_netUrl NetUrl.plain cfg urlBase ("", "/", "")
    (origin, bp, q) rfl rfl hstable hbase hbdots hdots).2
  rw [h]
  have hP := all_plainChar_composedPath bp cfg.UrlPrefix hbplain hplain
  show (NetUrl.plain.URLString (NetUrl.plain.setPath (origin, bp, q)
    (composedPath bp cfg.UrlPrefix)), none) = _
  rw [NetUrl.plain.setPath_plain _ _ hP]
  congr 1
  apply String.ext
  have hH := callbackSegments_spec bp cfg.UrlPrefix
  have hhead := joinSlashChars_head _ hH
  have hne : joinSlashChars (segmentChars bp.data ++
      (segmentChars cfg.UrlPrefix.data ++ ["hooks".data])) ≠ [] := by
    obtain ⟨x, hx⟩ := joinSlashChars_append_singleton
      (segmentChars bp.data ++ segmentChars cfg.UrlPrefix.data) "hooks".data
    rw [← List.append_assoc, hx]
    simp
  rw [NetUrl.plain.URLString_data, String.data_append, String.data_append, callbackPath_data,
    composedPath_data]
  by_cases hp : strings.HasPrefix bp "/" = true
  · have hh := (strings.HasPrefix_slash_iff bp).mp hp
    simp [hp, hh]
  · have hh : bp.data.head? ≠ some '/' := fun e => hp ((strings.HasPrefix_slash_iff bp).mpr e)
    rw [if_neg hp, List.nil_append]
    by_cases ho : origin.data = []
    · simp [ho, hh]
    · rw [if_pos ⟨ho, hne, hhead⟩, if_neg (fun e => ho e.1)]
      simp

/-- With the plain `net/url`, for a non-empty base URL without query whose path has
no repeated slashes: the composed URL is the base URL, minus a trailing slash,
followed by the hook path of the spec. -/
theorem NetUrl.plain.fullUrl_block (cfg : ServerConfig) (urlBase origin bp : String)
    (hbase : NetUrl.plain.Parse urlBase = .ok (origin, bp, ""))
    (hplain : cfg.UrlPrefix.data.all plainChar = true)
    (hbdots : ∀ s ∈ segments bp, s ≠ "." ∧ s ≠ "..")
    (hdots : ∀ s ∈ segments cfg.UrlPrefix, s ≠ "." ∧ s ≠ "..")
    (hne : urlBase ≠ "") (hN : hasDoubleSlash bp.data = false) :
    ensureWebhooks.fullUrl NetUrl.plain urlBase cfg =
      (strings.TrimSuffix urlBase "/" ++ hooksPath cfg.UrlPrefix, none) := by
  rw [NetUrl.plain.fullUrl_eq cfg urlBase origin bp "" hbase hplain hbdots hdots]
  obtain ⟨hdata, _, horigin⟩ := NetUrl.plain.Parse_ok urlBase origin bp "" hbase
  have hempty : ("" : String).data = [] := rfl
  rw [hempty, List.append_nil] at hdata
  have hT : segmentChars cfg.UrlPrefix.data ++ ["hooks".data] ≠ [] := by simp
  congr 1
  apply String.ext
  rw [String.data_append, String.data_append, String.data_append, hempty, List.append_nil,
    callbackPath_data, hooksPath_data]
  rcases List.eq_nil_or_concat bp.data with hb | ⟨b', c, hb⟩
  · rw [hb, List.append_nil] at hdata
    have ho : origin.data ≠ [] := by
      intro e
      apply hne
      apply String.ext
      rw [hdata, e]
    rcases horigin with h | ⟨_, hlast, _⟩
    · exact absurd h ho
    · rcases List.eq_nil_or_concat origin.data with h | ⟨o', d, h⟩
      · exact absurd h ho
      · rw [List.concat_eq_append] at h
        have hd : d ≠ '/' := by
          rw [h] at hlast
          simpa using hlast
        rw [strings.TrimSuffix_slash_concat urlBase o' d (hdata.trans h), if_neg hd, ← h, hb]
        have hnil : segmentChars [] = [] := by decide
        simp [ho, hnil]
  · rw [List.concat_eq_append] at hb
    have hdata' : urlBase.data = (origin.data ++ b') ++ [c] := by
      rw [hdata, hb, List.append_assoc]
    rw [strings.TrimSuffix_slash_concat urlBase _ c hdata']
    rw [hb] at hN horigin ⊢
    have hblock := joinSlashChars_block b' c hN _ hT
    have hsep : (if origin.data = [] ∧ (b' ++ [c]).head? ≠ some '/' then ([] : List Char)
        else ['/']) = (if (b' ++ [c]).head? = some '/' then ['/'] else []) := by
      by_cases hh : (b' ++ [c]).head? = some '/'
      · rw [if_pos hh, if_neg (fun h => h.2 hh)]
      · have ho : origin.data = [] := by
          rcases horigin with h | ⟨_, _, h | h⟩
          · exact h
          · simp at h
          · exact absurd h hh
        rw [if_neg hh, if_pos ⟨ho, hh⟩]
    rw [hsep, List.append_assoc, hblock]
    split <;> simp

/-! ## Callback URL composition: the claim -/

/-- C9, amended: let the base URL be a plain URL (`http://` or `https://` with a host,
an optional port and a path, or a path alone, optionally with a query, written with
characters that need no escaping), let the URL prefix be written with such
characters, and let neither the path of the base URL nor the prefix have a `.` or
`..` segment.  Then the base URL is an origin, a path and a query; `hooksPrefix` is
`/`, the segments of the prefix and `hooks` with exactly one `/` between neighbours;
the composed URL is the origin, then the segments of the base path, those of the
prefix and `hooks`, each after exactly one `/` (the first without one when the base
URL is a relative path alone), then the query; that path has no double slash and
does not end in a slash, nor does the composed URL when there is no query.  If
moreover the base URL is not empty, has no query and no repeated slash in its path,
the composed URL is the base URL, minus a trailing slash, followed by `hooksPrefix`;
with an empty prefix that is the base URL, minus a trailing slash, followed by
`/hooks`, also when the base URL has no path. -/
theorem callbackUrl_composition (cfg : ServerConfig) (urlBase origin basePath query : String)
    (hbase : NetUrl.plain.Parse urlBase = .ok (origin, basePath, query))
    (hplain : cfg.UrlPrefix.data.all plainChar = true)
    (hbdots : ∀ s ∈ segments basePath, s ≠ "." ∧ s ≠ "..")
    (hdots : ∀ s ∈ segments cfg.UrlPrefix, s ≠ "." ∧ s ≠ "..") :
    urlBase = origin ++ basePath ++ query ∧
      hooksPrefix NetUrl.plain cfg = "/" ++ joinSlash (segments cfg.UrlPrefix ++ ["hooks"]) ∧
      ensureWebhooks.fullUrl NetUrl.plain urlBase cfg =
        (origin ++ callbackPath origin basePath cfg.UrlPrefix ++ query, none) ∧
      hasDoubleSlash (callbackPath origin basePath cfg.UrlPrefix).data = false ∧
      strings.HasSuffix (callbackPath origin basePath cfg.UrlPrefix) "/" = false ∧
      (query = "" →
        strings.HasSuffix (ensureWebhooks.fullUrl NetUrl.plain urlBase cfg).1 "/" = false) ∧
      (urlBase ≠ "" → query = "" → hasDoubleSlash basePath.data = false →
        ensureWebhooks.fullUrl NetUrl.plain urlBase cfg =
          (strings.TrimSuffix urlBase "/" ++ hooksPrefix NetUrl.plain cfg, none)) ∧
      (cfg.UrlPrefix = "" → urlBase ≠ "" → query = "" → hasDoubleSlash basePath.data = false →
        ensureWebhooks.fullUrl NetUrl.plain urlBase cfg =
          (strings.TrimSuffix urlBase "/" ++ "/hooks", none)) := by
  have hp := NetUrl.plain.hooksPrefix_eq cfg hplain hdots
  have hblock : urlBase ≠ "" → query = "" → hasDoubleSlash basePath.data = false →
      ensureWebhooks.fullUrl NetUrl.plain urlBase cfg =
        (strings.TrimSuffix urlBase "/" ++ hooksPath cfg.UrlPrefix, none) := by
    intro hne hq hN
    subst hq
    exact NetUrl.plain.fullUrl_block cfg urlBase origin basePath hbase hplain hbdots hdots hne hN
  have hfull := NetUrl.plain.fullUrl_eq cfg urlBase origin basePath query hbase hplain hbdots
    hdots
  refine ⟨?_, hp, hfull, (callbackPath_normal _ _ _).1, (callbackPath_normal _ _ _).2, ?_, ?_,
    ?_⟩
  · apply String.ext
    rw [String.data_append, String.data_append]
    exact (NetUrl.plain.Parse_ok urlBase origin basePath query hbase).1
  · intro hq
    subst hq
    rw [hfull]
    apply not_hasSuffix_slash_of_getLast _ 's' (by decide)
    have hempty : ("" : String).data = [] := rfl
    obtain ⟨x, hx⟩ := joinSlashChars_append_singleton
      (segmentChars basePath.data ++ segmentChars cfg.UrlPrefix.data) "hooks".data
    show (origin ++ callbackPath origin basePath cfg.UrlPrefix ++ "").data.getLast? = _
    rw [String.data_append, String.data_append, hempty, List.append_nil, callbackPath_data,
      ← List.append_assoc (segmentChars basePath.data), hx, ← List.append_assoc,
      ← List.append_assoc, List.getLast?_append_of_ne_nil _ (by decide)]
    rfl
  · intro hne hq hN
    rw [hp]
    exact hblock hne hq hN
  · intro hpre hne hq hN
    rw [hblock hne hq hN, hpre]
    rfl

/-- C9 as stated fails.  With an empty URL prefix, the base URL
`https://example.com/a//b` gives `https://example.com/a/b/hooks`, the base URL
`https://example.com/a/../b` gives `https://example.com/b/hooks` and the base URL
`https://example.com/x?y=1` gives `https://example.com/x/hooks?y=1`: none is the base
URL followed by `/hooks`.  With the non-empty URL prefix `..` the composed URL is
`https://example.com/hooks`, the same as with an empty prefix, so the prefix does not
stand between base and `hooks`. -/
theorem callbackUrl_not_plain_concatenation :
    (ensureWebhooks.fullUrl NetUrl.plain "https://example.com/a//b" (sampleConfig "") =
        ("https://example.com/a/b/hooks", none) ∧
      ("https://example.com/a/b/hooks" : String) ≠ "https://example.com/a//b" ++ "/hooks") ∧
      (ensureWebhooks.fullUrl NetUrl.plain "https://example.com/a/../b" (sampleConfig "") =
        ("https://example.com/b/hooks", none) ∧
      ("https://example.com/b/hooks" : String) ≠ "https://example.com/a/../b" ++ "/hooks") ∧
      (ensureWebhooks.fullUrl NetUrl.plain "https://example.com/x?y=1" (sampleConfig "") =
        ("https://example.com/x/hooks?y=1", none) ∧
      ("https://example.com/x/hooks?y=1" : String) ≠ "https://example.com/x?y=1" ++ "/hooks") ∧
      hooksPrefix NetUrl.plain (sampleConfig "..") = "/hooks" ∧
      ensureWebhooks.fullUrl NetUrl.plain "https://example.com" (sampleConfig "..") =
        ("https://example.com/hooks", none) ∧
      ensureWebhooks.fullUrl NetUrl.plain "https://example.com" (sampleConfig "..") =
        ensureWebhooks.fullUrl NetUrl.plain "https://example.com" (sampleConfig "") := by
  decide

/-! ## The theorems at sample inputs -/

theorem buildVcsToArgoMap_groups_by_repo_witness :
    (sampleViper false true "").GetBool "monitor-all-applications" = true ∧
      ((buildVcsToArgoMap (sampleViper false true "") (.ok sampleApps)
          (sampleConfig "")).cfg.VcsToArgoMap.VcsRepos.index "R1" =
        [sampleApp "a" (some "R1"), sampleApp "d" (some "R1")] ∧
      ("R3" ∈ (buildVcsToArgoMap (sampleViper false true "") (.ok sampleApps)
          (sampleConfig "")).cfg.VcsToArgoMap.VcsRepos.keys ↔
        sourcedFrom "R3" sampleApps.Items ≠ [])) :=
  ⟨by decide,
    (buildVcsToArgoMap_groups_by_repo (sampleViper false true "") (sampleConfig "")
      sampleApps "R1" (by decide)).1.trans (by decide),
    (buildVcsToArgoMap_groups_by_repo (sampleViper false true "") (sampleConfig "")
      sampleApps "R3" (by decide)).2⟩

theorem buildVcsToArgoMap_skips_sourceless_witness :
    (sampleViper false true "").GetBool "monitor-all-applications" = true ∧
      (sampleApp "b" none).Spec.Source = none ∧
      ((∀ e ∈ (buildVcsToArgoMap (sampleViper false true "") (.ok sampleApps)
            (sampleConfig "")).cfg.VcsToArgoMap.VcsRepos.entries, sampleApp "b" none ∉ e.2) ∧
        ∀ r, sampleApp "b" none ∉ (buildVcsToArgoMap (sampleViper false true "")
            (.ok sampleApps) (sampleConfig "")).cfg.VcsToArgoMap.VcsRepos.index r) :=
  ⟨by decide, by decide,
    buildVcsToArgoMap_skips_sourceless (sampleViper false true "") (sampleConfig "")
      sampleApps (sampleApp "b" none) (by decide) (by decide)⟩

theorem buildVcsToArgoMap_fetch_error_witness :
    (sampleViper false true "").GetBool "monitor-all-applications" = true ∧
      ((buildVcsToArgoMap (sampleViper false true "") (.error (Error.New "unreachable"))
          (sampleConfig "")).err =
        some (Error.Wrap (Error.New "unreachable") "failed to list applications") ∧
      (buildVcsToArgoMap (sampleViper false true "") (.error (Error.New "unreachable"))
          (sampleConfig "")).err ≠ none ∧
      (buildVcsToArgoMap (sampleViper false true "") (.error (Error.New "unreachable"))
          (sampleConfig "")).cfg = sampleConfig "") :=
  ⟨by decide,
    buildVcsToArgoMap_fetch_error (sampleViper false true "") (sampleConfig "")
      (Error.New "unreachable") (by decide)⟩

theorem buildVcsToArgoMap_disabled_witness :
    (sampleViper false false "").GetBool "monitor-all-applications" = false ∧
      ((buildVcsToArgoMap (sampleViper false false "") (.ok sampleApps)
          (sampleConfig "")).err = none ∧
      (buildVcsToArgoMap (sampleViper false false "") (.ok sampleApps)
          (sampleConfig "")).trace = [] ∧
      (buildVcsToArgoMap (sampleViper false false "") (.ok sampleApps)
          (sampleConfig "")).cfg = sampleConfig "") :=
  ⟨by decide,
    buildVcsToArgoMap_disabled (sampleViper false false "") (sampleConfig "")
      (.ok sampleApps) (by decide)⟩

theorem ensureWebhooks_looks_up_every_repo_witness :
    (ensureWebhooks NetUrl.plain (sampleViper true true "https://kubechecks.example.com")
        sampleVcsClient (sampleConfig "") 0).1.err = none ∧
      ∀ r ∈ (sampleConfig "").VcsToArgoMap.VcsRepos.keys, ∃ err,
        Event.GetHookByUrl r
            (ensureWebhooks.fullUrl NetUrl.plain
              ((sampleViper true true "https://kubechecks.example.com").GetString
                "webhook-url-base") (sampleConfig "")).1 err ∈
          (ensureWebhooks NetUrl.plain (sampleViper true true "https://kubechecks.example.com")
            sampleVcsClient (sampleConfig "") 0).1.trace :=
  ensureWebhooks_looks_up_every_repo NetUrl.plain
    (sampleViper true true "https://kubechecks.example.com") sampleVcsClient (sampleConfig "") 0
    (by decide) (by decide) (by decide) (by decide)

theorem ensureWebhooks_configuration_error_witness :
    ((ensureWebhooks NetUrl.plain (sampleViper true false "https://kubechecks.example.com")
          sampleVcsClient (sampleConfig "") 0).1.err ≠ none ∧
        (ensureWebhooks NetUrl.plain (sampleViper true false "https://kubechecks.example.com")
          sampleVcsClient (sampleConfig "") 0).1.trace = [] ∧
        (ensureWebhooks NetUrl.plain (sampleViper true false "https://kubechecks.example.com")
          sampleVcsClient (sampleConfig "") 0).2 = 0) ∧
      ((ensureWebhooks NetUrl.plain (sampleViper true true "") sampleVcsClient
          (sampleConfig "") 0).1.err ≠ none ∧
        (ensureWebhooks NetUrl.plain (sampleViper true true "") sampleVcsClient
          (sampleConfig "") 0).1.trace = [] ∧
        (ensureWebhooks NetUrl.plain (sampleViper true true "") sampleVcsClient
          (sampleConfig "") 0).2 = 0) :=
  ⟨ensureWebhooks_configuration_error NetUrl.plain
      (sampleViper true false "https://kubechecks.example.com") sampleVcsClient
      (sampleConfig "") 0 (by decide) (Or.inl (by decide)),
    ensureWebhooks_configuration_error NetUrl.plain (sampleViper true true "") sampleVcsClient
      (sampleConfig "") 0 (by decide) (Or.inr (by decide))⟩

theorem ensureWebhooks_disabled_witness :
    (sampleViper false true "https://kubechecks.example.com").GetBool "ensure-webhooks" =
        false ∧
      ((ensureWebhooks NetUrl.plain (sampleViper false true "https://kubechecks.example.com")
          sampleVcsClient (sampleConfig "") 0).1.err = none ∧
      (ensureWebhooks NetUrl.plain (sampleViper false true "https://kubechecks.example.com")
          sampleVcsClient (sampleConfig "") 0).1.trace = [] ∧
      (ensureWebhooks NetUrl.plain (sampleViper false true "https://kubechecks.example.com")
          sampleVcsClient (sampleConfig "") 0).2 = 0 ∧
      (ensureWebhooks NetUrl.plain (sampleViper false true "https://kubechecks.example.com")
          sampleVcsClient (sampleConfig "") 0).1.cfg = sampleConfig "") :=
  ⟨by decide,
    ensureWebhooks_disabled NetUrl.plain (sampleViper false true "https://kubechecks.example.com")
      sampleVcsClient (sampleConfig "") 0 (by decide)⟩

theorem callbackUrl_composition_witness :
    (hooksPrefix NetUrl.plain (sampleConfig "/api//v1/") = "/api/v1/hooks" ∧
      ensureWebhooks.fullUrl NetUrl.plain "https://kubechecks.example.com/checks/"
          (sampleConfig "/api//v1/") =
        ("https://kubechecks.example.com/checks/api/v1/hooks", none)) ∧
      ensureWebhooks.fullUrl NetUrl.plain "https://kubechecks.example.com"
          (sampleConfig "") =
        ("https://kubechecks.example.com" ++ "/hooks", none) ∧
      ensureWebhooks.fullUrl NetUrl.plain "http://localhost:8080/" (sampleConfig "") =
        ("http://localhost:8080" ++ "/hooks", none) ∧
      ensureWebhooks.fullUrl NetUrl.plain "https://example.com//a/?x=1" (sampleConfig "v1") =
        ("https://example.com/a/v1/hooks?x=1", none) :=
  have h := callbackUrl_composition (sampleConfig "/api//v1/")
    "https://kubechecks.example.com/checks/" "https://kubechecks.example.com" "/checks/" ""
    rfl (by decide) (by decide) (by decide)
  have h0 := callbackUrl_composition (sampleConfig "") "https://kubechecks.example.com"
    "https://kubechecks.example.com" "" "" rfl (by decide) (by decide) (by decide)
  have h1 := callbackUrl_composition (sampleConfig "") "http://localhost:8080/"
    "http://localhost:8080" "/" "" rfl (by decide) (by decide) (by decide)
  have h2 := callbackUrl_composition (sampleConfig "v1") "https://example.com//a/?x=1"
    "https://example.com" "//a/" "?x=1" rfl (by decide) (by decide) (by decide)
  ⟨⟨h.2.1.trans (by decide),
      (h.2.2.2.2.2.2.1 (by decide) (by decide) (by decide)).trans (by decide)⟩,
    (h0.2.2.2.2.2.2.2 (by decide) (by decide) (by decide) (by decide)).trans (by decide),
    (h1.2.2.2.2.2.2.2 (by decide) (by decide) (by decide) (by decide)).trans (by decide),
    h2.2.2.1.trans (by decide)⟩

end Kubechecks
